import Mathlib

/-!
Verification of `indexeddb-export-import` (`src/index.js`).

The library serializes every object store of an IndexedDB database to a JSON
string (`exportToJsonString`), repopulates a database from such a string
(`importFromJsonString`), and clears all stores (`clearDatabase`).  ArrayBuffer
record fields ride through JSON as strings tagged with the 4-character sentinel
`_$AB` (`exportReplacer` / `importResolver`, using the codec `ab2str` /
`str2ab`).

Shallow embedding conventions:
* A JavaScript string is a `List Nat` of UTF-16 code units (`Str`); an
  `ArrayBuffer` is a `List Nat` of byte values.
* JavaScript values that can appear in records are modelled by the inductive
  `JVal` (JSON's null / booleans / numbers / strings / arrays / objects, plus
  ArrayBuffers).  Numbers are modelled as integers; floating point values are
  outside the model.
* The host's `JSON.stringify` / `JSON.parse` are modelled by an executable
  printer (`printVal`) and a fuel-indexed recursive-descent parser
  (`parseVal`), including string escaping and whitespace skipping.
* The asynchronous callback machinery is modelled operationally: each of the
  three operations is a fold over a list of engine events (per-store cursor
  completions, per-record add successes, per-store clear successes, or a
  transaction error), threading the same mutable state the closures in the
  source thread, and collecting the arguments of every invocation of the
  user callback `cb`.
-/

/-- A JavaScript string: its list of UTF-16 code units. -/
abbrev Str := List Nat

/-- An opaque transaction-error event (the `event` object handed to
`transaction.onerror`); only its identity matters to this library. -/
abbrev Err := Nat

/-- `'_$AB'` (source line 43): the fixed 4-character sentinel marking an
encoded ArrayBuffer, as UTF-16 code units. -/
def sentinel : Str := [95, 36, 65, 66]

/-- `ab2str` (source lines 72-74): `String.fromCharCode.apply(null, new
Uint8Array(buf))`.  Each stored byte becomes one UTF-16 code unit of the same
numeric value; `String.fromCharCode` truncates its argument to a 16-bit
unsigned integer, hence the `% 65536` (a no-op on genuine bytes). -/
def ab2str (buf : List Nat) : Str := buf.map (fun b => b % 65536)

/-- `str2ab` (source lines 84-91): allocates an `ArrayBuffer` of
`str.length * 2` bytes (zero-initialised, as the host guarantees), then writes
`str.charCodeAt(i)` through a `Uint8Array` view into byte `i` for
`i < str.length`; the `Uint8Array` store truncates each code unit to its low
byte (`% 256`).  The second half of the allocation is never written. -/
def str2ab (str : Str) : List Nat :=
  str.map (fun c => c % 256) ++ List.replicate str.length 0

/-- The JavaScript values this library moves around: JSON structure plus
ArrayBuffers.  Object members are kept as an ordered association list, which
is how the host enumerates own properties (insertion order for string keys). -/
inductive JVal where
  | null : JVal
  | bool (b : Bool) : JVal
  | num (i : Int) : JVal
  | str (s : Str) : JVal
  | arr (elems : List JVal) : JVal
  | obj (membs : List (Str × JVal)) : JVal
  | buf (bytes : List Nat) : JVal

/-- `isArrayBuffer` (source lines 58-62): in the model the runtime type test
(`instanceof ArrayBuffer` or a `[object ArrayBuffer]` toString tag, which
also covers buffers from another realm) is exactly the `JVal.buf`
constructor. -/
def isArrayBuffer : JVal → Bool
  | JVal.buf _ => true
  | _ => false

/-- `exportReplacer` (source lines 41-46): an ArrayBuffer value is replaced by
the string `'_$AB' + ab2str(value)`; every other value is returned
unchanged. -/
def exportReplacer (value : JVal) : JVal :=
  if isArrayBuffer value then
    match value with
    | JVal.buf b => JVal.str (sentinel ++ ab2str b)
    | v => v
  else value

/-- `importResolver` (source lines 128-134): a string value beginning with the
sentinel has the sentinel stripped (`value.slice(4)`) and the remainder
decoded with `str2ab`; every other value is returned unchanged. -/
def importResolver (value : JVal) : JVal :=
  match value with
  | JVal.str s =>
    if sentinel.isPrefixOf s then JVal.buf (str2ab (s.drop 4)) else JVal.str s
  | v => v

mutual

/-- Size of a `JVal` (number of constructors, counting list spines); used to
bound the fuel of the JSON parser. -/
def sizeJ : JVal → Nat
  | JVal.arr l => sizeL l + 1
  | JVal.obj m => sizeM m + 1
  | _ => 1

/-- Size of a list of JSON values (spine counted, never zero). -/
def sizeL : List JVal → Nat
  | [] => 1
  | v :: tl => sizeJ v + sizeL tl

/-- Size of a member list of a JSON object (spine counted, never zero). -/
def sizeM : List (Str × JVal) → Nat
  | [] => 1
  | (_, v) :: tl => sizeJ v + sizeM tl

end

mutual

/-- `true` iff the value contains no ArrayBuffer anywhere.  The output of the
export replacer pass is always buffer-free. -/
def bufFree : JVal → Bool
  | JVal.arr l => bufFreeL l
  | JVal.obj m => bufFreeM m
  | JVal.buf _ => false
  | _ => true

/-- `bufFree` on every element of a list. -/
def bufFreeL : List JVal → Bool
  | [] => true
  | v :: tl => bufFree v && bufFreeL tl

/-- `bufFree` on every member value of an object. -/
def bufFreeM : List (Str × JVal) → Bool
  | [] => true
  | (_, v) :: tl => bufFree v && bufFreeM tl

end

/-- Does the association list have an entry with the given key? -/
def hasKey {α : Type} : List (Str × α) → Str → Bool
  | [], _ => false
  | (k', _) :: tl, k => decide (k' = k) || hasKey tl k

/-- JavaScript property read `o[k]`: the value of the first entry with key
`k` (keys are unique in any list built by property assignment). -/
def lookupKey {α : Type} : List (Str × α) → Str → Option α
  | [], _ => none
  | (k', v) :: tl, k => if k' = k then some v else lookupKey tl k

/-- JavaScript property write `o[k] = v`: updates the existing entry in place
(keeping its position, as own-property enumeration order does) or appends a
new one. -/
def upsert {α : Type} : List (Str × α) → Str → α → List (Str × α)
  | [], k, v => [(k, v)]
  | (k', v') :: tl, k, v =>
    if k' = k then (k', v) :: tl else (k', v') :: upsert tl k v

/-- JavaScript `delete o[k]`: removes the entry (entries) with key `k`,
preserving the order of the others. -/
def eraseKey {α : Type} : List (Str × α) → Str → List (Str × α)
  | [], _ => []
  | (k', v) :: tl, k =>
    if k' = k then eraseKey tl k else (k', v) :: eraseKey tl k

/-- Keys of the association list are pairwise distinct. -/
def keysNodup {α : Type} : List (Str × α) → Bool
  | [] => true
  | (k, _) :: tl => !(hasKey tl k) && keysNodup tl

/-- Building a JavaScript object from a member list by successive property
assignments, as `JSON.parse` does: a repeated key overwrites the value of the
earlier entry but keeps its position. -/
def collapse (m : List (Str × JVal)) : List (Str × JVal) :=
  m.foldl (fun acc p => upsert acc p.1 p.2) []

mutual

/-- Object keys are pairwise distinct, recursively.  JavaScript objects have
this by construction; `JVal` terms outside the image of the model are
excluded through this predicate. -/
def wfKeys : JVal → Bool
  | JVal.arr l => wfKeysL l
  | JVal.obj m => keysNodup m && wfKeysM m
  | _ => true

/-- `wfKeys` on every element of a list. -/
def wfKeysL : List JVal → Bool
  | [] => true
  | v :: tl => wfKeys v && wfKeysL tl

/-- `wfKeys` on every member value of an object. -/
def wfKeysM : List (Str × JVal) → Bool
  | [] => true
  | (_, v) :: tl => wfKeys v && wfKeysM tl

end

mutual

/-- No string value anywhere in the term starts with the sentinel.  A plain
string colliding with the sentinel is mis-decoded on import (see the
`importResolver` claims); round-trip statements exclude such strings. -/
def noColl : JVal → Bool
  | JVal.str s => !(sentinel.isPrefixOf s)
  | JVal.arr l => noCollL l
  | JVal.obj m => noCollM m
  | _ => true

/-- `noColl` on every element of a list. -/
def noCollL : List JVal → Bool
  | [] => true
  | v :: tl => noColl v && noCollL tl

/-- `noColl` on every member value of an object. -/
def noCollM : List (Str × JVal) → Bool
  | [] => true
  | (_, v) :: tl => noColl v && noCollM tl

end

mutual

/-- The replacer pass of `JSON.stringify(exportObject, exportReplacer)`
(source line 28): the replacer is applied to every value of the tree before
serialization.  Since `exportReplacer` only rewrites ArrayBuffer leaves (into
strings, which have no children) and is the identity elsewhere, the traversal
is the structural map below. -/
def exportReplace : JVal → JVal
  | JVal.arr l => JVal.arr (exportReplaceL l)
  | JVal.obj m => JVal.obj (exportReplaceM m)
  | v => exportReplacer v

/-- `exportReplace` on every element of an array. -/
def exportReplaceL : List JVal → List JVal
  | [] => []
  | v :: tl => exportReplace v :: exportReplaceL tl

/-- `exportReplace` on every member value of an object (keys are not passed
through the replacer). -/
def exportReplaceM : List (Str × JVal) → List (Str × JVal)
  | [] => []
  | (k, v) :: tl => (k, exportReplace v) :: exportReplaceM tl

end

mutual

/-- The reviver pass of `JSON.parse(jsonString, importResolver)` (source line
106): the reviver runs bottom-up over every parsed value (keys are not
revived).  `importResolver` is pure and never returns `undefined`, so the
pass is the structural bottom-up map below. -/
def importRevive : JVal → JVal
  | JVal.arr l => importResolver (JVal.arr (importReviveL l))
  | JVal.obj m => importResolver (JVal.obj (importReviveM m))
  | v => importResolver v

/-- `importRevive` on every element of an array. -/
def importReviveL : List JVal → List JVal
  | [] => []
  | v :: tl => importRevive v :: importReviveL tl

/-- `importRevive` on every member value of an object. -/
def importReviveM : List (Str × JVal) → List (Str × JVal)
  | [] => []
  | (k, v) :: tl => (k, importRevive v) :: importReviveM tl

end

mutual

/-- What one export/import round trip does to a value: every ArrayBuffer of
`n` bytes comes back as its bytes (truncated to 8 bits) followed by `n` zero
bytes — the observable consequence of `str2ab` allocating twice the length it
writes — and everything else is unchanged. -/
def skew : JVal → JVal
  | JVal.buf b => JVal.buf (b.map (fun x => x % 256) ++ List.replicate b.length 0)
  | JVal.arr l => JVal.arr (skewL l)
  | JVal.obj m => JVal.obj (skewM m)
  | v => v

/-- `skew` on every element of an array. -/
def skewL : List JVal → List JVal
  | [] => []
  | v :: tl => skew v :: skewL tl

/-- `skew` on every member value of an object. -/
def skewM : List (Str × JVal) → List (Str × JVal)
  | [] => []
  | (k, v) :: tl => (k, skew v) :: skewM tl

end

/-- The decimal digits of `n`, least significant first, as UTF-16 code units;
the first argument is structural fuel (any `fuel ≥ n` is exact). -/
def toDigits : Nat → Nat → Str
  | 0, _ => []
  | fuel + 1, n => if n = 0 then [] else (n % 10 + 48) :: toDigits fuel (n / 10)

/-- Decimal representation of a natural number, as `String(n)` produces it. -/
def printNat (n : Nat) : Str :=
  if n = 0 then [48] else (toDigits n n).reverse

/-- Decimal representation of an integer, as `JSON.stringify` prints the
(integral) numbers in this model. -/
def printInt (i : Int) : Str :=
  if i < 0 then 45 :: printNat i.natAbs else printNat i.toNat

/-- Lower-case hexadecimal digit for a value below 16. -/
def hexDigit (n : Nat) : Nat := if n < 10 then n + 48 else n + 87

/-- How `JSON.stringify` emits one code unit inside a quoted string: `"` and
`\` get a backslash escape, the five named control characters use their short
escapes, every other control character below U+0020 becomes `\u00xx`, and all
remaining code units are emitted literally. -/
def escapeChar (c : Nat) : Str :=
  if c = 34 then [92, 34]
  else if c = 92 then [92, 92]
  else if c = 8 then [92, 98]
  else if c = 9 then [92, 116]
  else if c = 10 then [92, 110]
  else if c = 12 then [92, 102]
  else if c = 13 then [92, 114]
  else if c < 32 then [92, 117, 48, 48, hexDigit (c / 16), hexDigit (c % 16)]
  else [c]

/-- Body of a JSON string literal: every code unit escaped as needed. -/
def escBody (s : Str) : Str := (s.map escapeChar).flatten

/-- A JSON string literal: `"` body `"`. -/
def quoteStr (s : Str) : Str := 34 :: escBody s ++ [34]

mutual

/-- `JSON.stringify` (without replacer) on a `JVal`, producing the JSON text
as code units.  A bare ArrayBuffer — which the export path never lets through,
since the replacer rewrites it first — stringifies as `{}`, an object with no
enumerable own properties. -/
def printVal : JVal → Str
  | JVal.null => [110, 117, 108, 108]
  | JVal.bool true => [116, 114, 117, 101]
  | JVal.bool false => [102, 97, 108, 115, 101]
  | JVal.num i => printInt i
  | JVal.str s => quoteStr s
  | JVal.arr l => 91 :: (printItems l ++ [93])
  | JVal.obj m => 123 :: (printMembers m ++ [125])
  | JVal.buf _ => [123, 125]

/-- Comma-separated array elements. -/
def printItems : List JVal → Str
  | [] => []
  | [v] => printVal v
  | v :: tl => printVal v ++ 44 :: printItems tl

/-- Comma-separated `"key":value` object members. -/
def printMembers : List (Str × JVal) → Str
  | [] => []
  | [(k, v)] => quoteStr k ++ 58 :: printVal v
  | (k, v) :: tl => quoteStr k ++ 58 :: printVal v ++ 44 :: printMembers tl

end

/-- JSON insignificant whitespace. -/
def isWs (c : Nat) : Bool := decide (c = 32 ∨ c = 9 ∨ c = 10 ∨ c = 13)

/-- ASCII decimal digit. -/
def isDigit (c : Nat) : Bool := decide (48 ≤ c ∧ c ≤ 57)

/-- Skip leading JSON whitespace. -/
def skipWs : Str → Str
  | [] => []
  | c :: rest => if isWs c then skipWs rest else c :: rest

/-- Consume a maximal run of decimal digits, accumulating their value onto
`acc`; returns the value and the unconsumed remainder. -/
def parseNatAux : Str → Nat → Nat × Str
  | [], acc => (acc, [])
  | c :: rest, acc =>
    if isDigit c then parseNatAux rest (acc * 10 + (c - 48)) else (acc, c :: rest)

/-- Value of one hexadecimal digit, if the code unit is one. -/
def parseHex (c : Nat) : Option Nat :=
  if 48 ≤ c ∧ c ≤ 57 then some (c - 48)
  else if 97 ≤ c ∧ c ≤ 102 then some (c - 87)
  else if 65 ≤ c ∧ c ≤ 70 then some (c - 55)
  else none

/-- Parse the body of a JSON string literal after the opening quote, with the
code units read so far in reverse in `acc`: stops at the closing quote,
handles the JSON escapes, and rejects raw control characters. -/
def parseStrAux : Str → Str → Option (Str × Str)
  | [], _ => none
  | c :: rest, acc =>
    if c = 34 then some (acc.reverse, rest)
    else if c = 92 then
      match rest with
      | [] => none
      | e :: rest2 =>
        if e = 34 then parseStrAux rest2 (34 :: acc)
        else if e = 92 then parseStrAux rest2 (92 :: acc)
        else if e = 47 then parseStrAux rest2 (47 :: acc)
        else if e = 98 then parseStrAux rest2 (8 :: acc)
        else if e = 116 then parseStrAux rest2 (9 :: acc)
        else if e = 110 then parseStrAux rest2 (10 :: acc)
        else if e = 102 then parseStrAux rest2 (12 :: acc)
        else if e = 114 then parseStrAux rest2 (13 :: acc)
        else if e = 117 then
          match rest2 with
          | h1 :: h2 :: h3 :: h4 :: rest3 =>
            match parseHex h1, parseHex h2, parseHex h3, parseHex h4 with
            | some a, some b, some c2, some d =>
              parseStrAux rest3 ((((a * 16 + b) * 16 + c2) * 16 + d) :: acc)
            | _, _, _, _ => none
          | _ => none
        else none
    else if c < 32 then none
    else parseStrAux rest (c :: acc)

mutual

/-- `JSON.parse` on the grammar this model covers (numbers restricted to
integers), as a fuel-indexed recursive-descent parser returning the parsed
value and the unconsumed remainder.  Any fuel at least the size of the parsed
value is exact; `jsonParse` supplies enough. -/
def parseVal : Nat → Str → Option (JVal × Str)
  | 0, _ => none
  | fuel + 1, s =>
    match skipWs s with
    | [] => none
    | c :: r =>
      if c = 110 then
        match r with
        | 117 :: 108 :: 108 :: r2 => some (JVal.null, r2)
        | _ => none
      else if c = 116 then
        match r with
        | 114 :: 117 :: 101 :: r2 => some (JVal.bool true, r2)
        | _ => none
      else if c = 102 then
        match r with
        | 97 :: 108 :: 115 :: 101 :: r2 => some (JVal.bool false, r2)
        | _ => none
      else if c = 34 then
        (parseStrAux r []).map (fun p => (JVal.str p.1, p.2))
      else if c = 91 then
        match skipWs r with
        | 93 :: r2 => some (JVal.arr [], r2)
        | _ => (parseArrItems fuel r).map (fun p => (JVal.arr p.1, p.2))
      else if c = 123 then
        match skipWs r with
        | 125 :: r2 => some (JVal.obj [], r2)
        | _ => (parseObjItems fuel r).map (fun p => (JVal.obj (collapse p.1), p.2))
      else if c = 45 then
        match r with
        | d :: _ =>
          if isDigit d then
            some (JVal.num (-((parseNatAux r 0).1 : Int)), (parseNatAux r 0).2)
          else none
        | [] => none
      else if isDigit c then
        some (JVal.num ((parseNatAux (c :: r) 0).1 : Int), (parseNatAux (c :: r) 0).2)
      else none

/-- One-or-more comma-separated array elements followed by `]`. -/
def parseArrItems : Nat → Str → Option (List JVal × Str)
  | 0, _ => none
  | fuel + 1, s =>
    match parseVal fuel s with
    | none => none
    | some (v, r) =>
      match skipWs r with
      | 44 :: r2 => (parseArrItems fuel r2).map (fun p => (v :: p.1, p.2))
      | 93 :: r2 => some ([v], r2)
      | _ => none

/-- One-or-more comma-separated `"key":value` members followed by `}`. -/
def parseObjItems : Nat → Str → Option (List (Str × JVal) × Str)
  | 0, _ => none
  | fuel + 1, s =>
    match skipWs s with
    | 34 :: r =>
      match parseStrAux r [] with
      | none => none
      | some (k, r1) =>
        match skipWs r1 with
        | 58 :: r2 =>
          match parseVal fuel r2 with
          | none => none
          | some (v, r3) =>
            match skipWs r3 with
            | 44 :: r4 => (parseObjItems fuel r4).map (fun p => ((k, v) :: p.1, p.2))
            | 125 :: r4 => some ([(k, v)], r4)
            | _ => none
        | _ => none
    | _ => none

end

/-- `JSON.parse` on a complete text: parse one value and require that only
whitespace follows; `none` models the `SyntaxError` exception `JSON.parse`
throws on malformed input. -/
def jsonParse (s : Str) : Option JVal :=
  match parseVal (s.length + 1) s with
  | some (v, rest) => if skipWs rest = [] then some v else none
  | none => none

/-- The decoder pads: decoding the encoding of a byte buffer `b` yields the
bytes of `b` followed by `b.length` zero bytes, because `str2ab` allocates
`2 * length` bytes and writes only the first half. -/
theorem codec_decode_encode_pads (b : List Nat) (hb : ∀ x ∈ b, x < 256) :
    str2ab (ab2str b) = b ++ List.replicate b.length 0 := by
  unfold str2ab ab2str
  rw [List.map_map, List.length_map]
  congr 1
  have h1 : ∀ x ∈ b, ((fun c => c % 256) ∘ fun u => u % 65536) x = (fun x => x) x := by
    intro x hx
    simp only [Function.comp_apply]
    rw [Nat.mod_mod_of_dvd x (by norm_num), Nat.mod_eq_of_lt (hb x hx)]
  rw [List.map_congr_left h1, List.map_id' b]

/-- The claim `str2ab (ab2str b) = b` fails already on the one-byte buffer
`[0]`: the decoded buffer has two bytes. -/
theorem codec_roundtrip_claim_counterexample :
    str2ab (ab2str [0]) = [0, 0] ∧ str2ab (ab2str [0]) ≠ [0] := by
  constructor
  · rfl
  · decide

/-- Concrete instances of `codec_decode_encode_pads`: a buffer of length 0,
one of length 1, and one of length 256 (> 100) containing every byte value
0–255. -/
theorem codec_decode_encode_pads_witness :
    str2ab (ab2str []) = [] ++ List.replicate (List.length ([] : List Nat)) 0
    ∧ str2ab (ab2str [7]) = [7] ++ List.replicate [7].length 0
    ∧ str2ab (ab2str (List.range 256)) =
        List.range 256 ++ List.replicate (List.range 256).length 0 := by
  refine ⟨codec_decode_encode_pads [] ?_, codec_decode_encode_pads [7] ?_,
    codec_decode_encode_pads (List.range 256) ?_⟩
  · intro x hx; cases hx
  · intro x hx; simp only [List.mem_singleton] at hx; omega
  · intro x hx; exact List.mem_range.mp hx

/-- `str2ab` allocates `2 * length` bytes, the first `length` of which are the
low bytes of the input's code units and the rest of which stay zero. -/
theorem str2ab_allocation (s : Str) :
    (str2ab s).length = 2 * s.length
    ∧ List.take s.length (str2ab s) = s.map (fun c => c % 256)
    ∧ List.drop s.length (str2ab s) = List.replicate s.length 0 := by
  refine ⟨?_, ?_, ?_⟩
  · simp [str2ab]; omega
  · exact List.take_left' (by simp)
  · exact List.drop_left' (by simp)

/-- The export replacer rewrites exactly the ArrayBuffer values into the
sentinel-tagged encoding (one code unit per byte, numerically equal for byte
values 0–255) and leaves every other value to ordinary serialization. -/
theorem export_replacer_tags_buffers :
    (∀ b, exportReplacer (JVal.buf b) = JVal.str (sentinel ++ ab2str b))
    ∧ sentinel.length = 4
    ∧ (∀ b, (ab2str b).length = b.length)
    ∧ (∀ b, (∀ x ∈ b, x < 256) → ab2str b = b)
    ∧ (∀ v, isArrayBuffer v = false → exportReplacer v = v) := by
  refine ⟨fun b => rfl, rfl, fun b => by simp [ab2str], ?_, ?_⟩
  · intro b hb
    unfold ab2str
    have h1 : ∀ x ∈ b, (fun u => u % 65536) x = (fun x => x) x := by
      intro x hx
      simpa using Nat.mod_eq_of_lt (show x < 65536 by have := hb x hx; omega)
    rw [List.map_congr_left h1, List.map_id' b]
  · intro v hv
    unfold exportReplacer
    rw [hv]
    simp

/-- The import resolver decodes every sentinel-prefixed string value —
including plain strings that merely collide with the sentinel — by stripping
the 4-character sentinel and applying `str2ab`, and changes nothing else. -/
theorem import_resolver_strips_sentinel :
    (∀ rest, importResolver (JVal.str (sentinel ++ rest)) = JVal.buf (str2ab rest))
    ∧ (∀ s, sentinel.isPrefixOf s = true →
        importResolver (JVal.str s) = JVal.buf (str2ab (s.drop 4)))
    ∧ (∀ s, sentinel.isPrefixOf s = false → importResolver (JVal.str s) = JVal.str s)
    ∧ (∀ v, isArrayBuffer v = true → importResolver v = v)
    ∧ (∀ i, importResolver (JVal.num i) = JVal.num i)
    ∧ importResolver JVal.null = JVal.null := by
  refine ⟨?_, ?_, ?_, ?_, fun i => rfl, rfl⟩
  · intro rest
    simp [importResolver, sentinel, List.isPrefixOf]
  · intro s hs
    simp [importResolver, hs]
  · intro s hs
    simp [importResolver, hs]
  · intro v hv
    cases v <;> simp_all [importResolver, isArrayBuffer]

/-- Concrete instance of `export_replacer_tags_buffers`: the byte buffer
`[0, 255, 16]` of the spec's scenario, plus an untouched non-buffer value. -/
theorem export_replacer_tags_buffers_witness :
    exportReplacer (JVal.buf [0, 255, 16]) = JVal.str (sentinel ++ ab2str [0, 255, 16])
    ∧ ab2str [0, 255, 16] = [0, 255, 16]
    ∧ exportReplacer (JVal.str [95]) = JVal.str [95] :=
  ⟨export_replacer_tags_buffers.1 [0, 255, 16],
   export_replacer_tags_buffers.2.2.2.1 [0, 255, 16] (by decide),
   export_replacer_tags_buffers.2.2.2.2 (JVal.str [95]) rfl⟩

/-- Concrete instance of `import_resolver_strips_sentinel`: a tagged string is
decoded, a string not starting with the sentinel and a non-string value are
untouched. -/
theorem import_resolver_strips_sentinel_witness :
    importResolver (JVal.str (sentinel ++ [104, 105])) = JVal.buf (str2ab [104, 105])
    ∧ importResolver (JVal.str [104]) = JVal.str [104]
    ∧ importResolver (JVal.buf [1]) = JVal.buf [1] :=
  ⟨import_resolver_strips_sentinel.1 [104, 105],
   import_resolver_strips_sentinel.2.2.1 [104] rfl,
   import_resolver_strips_sentinel.2.2.2.1 (JVal.buf [1]) rfl⟩

mutual

/-- Every value has positive size. -/
theorem sizeJ_pos : ∀ v : JVal, 1 ≤ sizeJ v
  | JVal.null => by simp [sizeJ]
  | JVal.bool _ => by simp [sizeJ]
  | JVal.num _ => by simp [sizeJ]
  | JVal.str _ => by simp [sizeJ]
  | JVal.arr _ => by simp [sizeJ]
  | JVal.obj _ => by simp [sizeJ]
  | JVal.buf _ => by simp [sizeJ]

/-- Every list spine has positive size. -/
theorem sizeL_pos : ∀ l : List JVal, 1 ≤ sizeL l
  | [] => by simp [sizeL]
  | v :: tl => by have h1 := sizeJ_pos v; have h2 := sizeL_pos tl; simp [sizeL]; omega

/-- Every member-list spine has positive size. -/
theorem sizeM_pos : ∀ m : List (Str × JVal), 1 ≤ sizeM m
  | [] => by simp [sizeM]
  | (_, v) :: tl => by have h1 := sizeJ_pos v; have h2 := sizeM_pos tl; simp [sizeM]; omega

end

/-- Skipping whitespace leaves a string with a non-whitespace head alone. -/
theorem skipWs_cons_of_not_ws {c : Nat} (r : Str) (h : isWs c = false) :
    skipWs (c :: r) = c :: r := by
  simp [skipWs, h]

/-- `toDigits` produces only ASCII digit code units. -/
theorem toDigits_digit : ∀ fuel n c, c ∈ toDigits fuel n → 48 ≤ c ∧ c ≤ 57 := by
  intro fuel
  induction fuel with
  | zero => intro n c hc; simp [toDigits] at hc
  | succ f ih =>
    intro n c hc
    by_cases hn : n = 0
    · simp [toDigits, hn] at hc
    · rw [toDigits, if_neg hn] at hc
      rcases List.mem_cons.mp hc with h | h
      · have := Nat.mod_lt n (show 0 < 10 by norm_num)
        omega
      · exact ih _ _ h

/-- `toDigits` is nonempty on a nonzero number. -/
theorem toDigits_ne_nil (fuel n : Nat) (hn : n ≠ 0) : toDigits (fuel + 1) n ≠ [] := by
  rw [toDigits, if_neg hn]
  simp

/-- Reading back the digits of `n` (most significant first) continues into the
rest with `n` merged into the accumulator. -/
theorem parseNatAux_toDigits :
    ∀ fuel n acc rest, n ≤ fuel →
      parseNatAux ((toDigits fuel n).reverse ++ rest) acc =
        parseNatAux rest (acc * 10 ^ (toDigits fuel n).length + n) := by
  intro fuel
  induction fuel with
  | zero =>
    intro n acc rest hn
    have : n = 0 := by omega
    simp [this, toDigits]
  | succ f ih =>
    intro n acc rest hn
    by_cases hn0 : n = 0
    · simp [hn0, toDigits]
    · rw [toDigits, if_neg hn0]
      have hdiv : n / 10 ≤ f := by
        have := Nat.div_lt_self (Nat.pos_of_ne_zero hn0) (show 1 < 10 by norm_num)
        omega
      rw [List.reverse_cons, List.append_assoc, ih (n / 10) acc _ hdiv]
      have hdig : isDigit (n % 10 + 48) = true := by
        have := Nat.mod_lt n (show 0 < 10 by norm_num)
        simp [isDigit]; omega
      rw [List.singleton_append, parseNatAux, if_pos hdig]
      congr 1
      have h48 : n % 10 + 48 - 48 = n % 10 := by omega
      rw [h48, List.length_cons, pow_succ, ← Nat.mul_assoc]
      generalize acc * 10 ^ (toDigits f (n / 10)).length = A
      omega

/-- The rest of the input does not begin with a decimal digit (so a number
parse stops exactly there). -/
def headNotDigit : Str → Bool
  | [] => true
  | c :: _ => !(isDigit c)

/-- The digit reader stops in front of a non-digit. -/
theorem parseNatAux_stop (rest : Str) (acc : Nat) (h : headNotDigit rest = true) :
    parseNatAux rest acc = (acc, rest) := by
  cases rest with
  | nil => rfl
  | cons c t =>
    simp [headNotDigit] at h
    simp [parseNatAux, h]

/-- Reading back `printNat n` recovers `n` and stops at the delimiter. -/
theorem printNat_parse (n : Nat) (rest : Str) (h : headNotDigit rest = true) :
    parseNatAux (printNat n ++ rest) 0 = (n, rest) := by
  by_cases hn : n = 0
  · subst hn
    have h0 : printNat 0 ++ rest = 48 :: rest := by simp [printNat]
    have h1 : parseNatAux (48 :: rest) 0 = parseNatAux rest 0 := by
      simp [parseNatAux, isDigit]
    rw [h0, h1, parseNatAux_stop rest 0 h]
  · rw [printNat, if_neg hn, parseNatAux_toDigits n n 0 rest (le_refl n),
      parseNatAux_stop rest _ h]
    simp

/-- The decimal form of any natural starts with a digit. -/
theorem printNat_head (n : Nat) : ∃ c t, printNat n = c :: t ∧ 48 ≤ c ∧ c ≤ 57 := by
  by_cases hn : n = 0
  · exact ⟨48, [], by simp [hn, printNat], by norm_num, by norm_num⟩
  · rw [printNat, if_neg hn]
    cases n with
    | zero => exact absurd rfl hn
    | succ m =>
      rw [toDigits, if_neg hn, List.reverse_cons]
      cases hrev : (toDigits m ((m + 1) / 10)).reverse with
      | nil =>
        have hm := Nat.mod_lt (m + 1) (show 0 < 10 by norm_num)
        refine ⟨(m + 1) % 10 + 48, [], by simp [hrev], by omega, by omega⟩
      | cons a t =>
        have ha : a ∈ toDigits m ((m + 1) / 10) := by
          have : a ∈ (toDigits m ((m + 1) / 10)).reverse := by rw [hrev]; simp
          simpa using this
        obtain ⟨h1, h2⟩ := toDigits_digit m _ a ha
        exact ⟨a, t ++ [(m + 1) % 10 + 48], by simp [hrev], h1, h2⟩


/-- `parseHex` inverts `hexDigit` on values below 16. -/
theorem parseHex_hexDigit (d : Nat) (hd : d < 16) : parseHex (hexDigit d) = some d := by
  unfold hexDigit parseHex
  by_cases h : d < 10
  · rw [if_pos h, if_pos (by omega : 48 ≤ d + 48 ∧ d + 48 ≤ 57)]
    congr 1
  · rw [if_neg h, if_neg (by omega : ¬(48 ≤ d + 87 ∧ d + 87 ≤ 57)),
      if_pos (by omega : 97 ≤ d + 87 ∧ d + 87 ≤ 102)]
    congr 1

/-- Stepping the string reader over a `\u00xx` escape pushes the encoded
control character. -/
theorem parseStrAux_esc_u (c : Nat) (hc : c < 32) (rest acc : Str) :
    parseStrAux (92 :: 117 :: 48 :: 48 :: hexDigit (c / 16) :: hexDigit (c % 16) :: rest) acc =
      parseStrAux rest (c :: acc) := by
  have hh3 : parseHex (hexDigit (c / 16)) = some (c / 16) := parseHex_hexDigit _ (by omega)
  have hh4 : parseHex (hexDigit (c % 16)) = some (c % 16) :=
    parseHex_hexDigit _ (Nat.mod_lt c (by norm_num))
  rw [parseStrAux.eq_def]
  simp only [show parseHex 48 = some 0 by rfl, hh3, hh4]
  norm_num
  congr 2
  omega

/-- Reading back an escaped string body up to the closing quote recovers the
original code units (appended to the reversed accumulator). -/
theorem parseStrAux_round :
    ∀ (s acc rest : Str),
      parseStrAux (escBody s ++ 34 :: rest) acc = some (acc.reverse ++ s, rest) := by
  intro s
  induction s with
  | nil =>
    intro acc rest
    have h : escBody [] ++ 34 :: rest = 34 :: rest := by simp [escBody]
    rw [h, parseStrAux.eq_def]
    norm_num
  | cons c tl ih =>
    intro acc rest
    have hbody : escBody (c :: tl) ++ 34 :: rest = escapeChar c ++ (escBody tl ++ 34 :: rest) := by
      simp [escBody]
    rw [hbody]
    by_cases h34 : c = 34
    · subst h34
      have hstep : ∀ t a, parseStrAux (92 :: 34 :: t) a = parseStrAux t (34 :: a) := by
        intro t a; rw [parseStrAux.eq_def]; norm_num
      rw [show escapeChar 34 = [92, 34] from rfl]
      simp only [List.cons_append, List.nil_append]
      rw [hstep, ih]
      simp
    · by_cases h92 : c = 92
      · subst h92
        have hstep : ∀ t a, parseStrAux (92 :: 92 :: t) a = parseStrAux t (92 :: a) := by
          intro t a; rw [parseStrAux.eq_def]; norm_num
        rw [show escapeChar 92 = [92, 92] from rfl]
        simp only [List.cons_append, List.nil_append]
        rw [hstep, ih]
        simp
      · by_cases h8 : c = 8
        · subst h8
          have hstep : ∀ t a, parseStrAux (92 :: 98 :: t) a = parseStrAux t (8 :: a) := by
            intro t a; rw [parseStrAux.eq_def]; norm_num
          rw [show escapeChar 8 = [92, 98] from rfl]
          simp only [List.cons_append, List.nil_append]
          rw [hstep, ih]
          simp
        · by_cases h9 : c = 9
          · subst h9
            have hstep : ∀ t a, parseStrAux (92 :: 116 :: t) a = parseStrAux t (9 :: a) := by
              intro t a; rw [parseStrAux.eq_def]; norm_num
            rw [show escapeChar 9 = [92, 116] from rfl]
            simp only [List.cons_append, List.nil_append]
            rw [hstep, ih]
            simp
          · by_cases h10 : c = 10
            · subst h10
              have hstep : ∀ t a, parseStrAux (92 :: 110 :: t) a = parseStrAux t (10 :: a) := by
                intro t a; rw [parseStrAux.eq_def]; norm_num
              rw [show escapeChar 10 = [92, 110] from rfl]
              simp only [List.cons_append, List.nil_append]
              rw [hstep, ih]
              simp
            · by_cases h12 : c = 12
              · subst h12
                have hstep : ∀ t a, parseStrAux (92 :: 102 :: t) a = parseStrAux t (12 :: a) := by
                  intro t a; rw [parseStrAux.eq_def]; norm_num
                rw [show escapeChar 12 = [92, 102] from rfl]
                simp only [List.cons_append, List.nil_append]
                rw [hstep, ih]
                simp
              · by_cases h13 : c = 13
                · subst h13
                  have hstep : ∀ t a, parseStrAux (92 :: 114 :: t) a = parseStrAux t (13 :: a) := by
                    intro t a; rw [parseStrAux.eq_def]; norm_num
                  rw [show escapeChar 13 = [92, 114] from rfl]
                  simp only [List.cons_append, List.nil_append]
                  rw [hstep, ih]
                  simp
                · by_cases hctl : c < 32
                  · rw [show escapeChar c = [92, 117, 48, 48, hexDigit (c / 16), hexDigit (c % 16)] by
                      simp [escapeChar, h34, h92, h8, h9, h10, h12, h13, hctl]]
                    simp only [List.cons_append, List.nil_append]
                    rw [parseStrAux_esc_u c hctl, ih]
                    simp
                  · rw [show escapeChar c = [c] by
                      simp [escapeChar, h34, h92, h8, h9, h10, h12, h13, hctl]]
                    simp only [List.cons_append, List.nil_append]
                    have hstep : parseStrAux (c :: (escBody tl ++ 34 :: rest)) acc =
                        parseStrAux (escBody tl ++ 34 :: rest) (c :: acc) := by
                      rw [parseStrAux.eq_def]
                      simp [h34, h92, hctl]
                    rw [hstep, ih]
                    simp

/-- The first code unit of a printed value is never whitespace, `]`, or `}`
(so the look-ahead in the array/object parsers falls through to the element
branch). -/
def goodHead : Str → Bool
  | [] => false
  | c :: _ => !(isWs c) && !(decide (c = 93)) && !(decide (c = 125))

/-- A string of decimal digit code units has a good head. -/
theorem goodHead_digits (s : Str) (hne : s ≠ []) (hd : ∀ c ∈ s, 48 ≤ c ∧ c ≤ 57) :
    goodHead s = true := by
  cases s with
  | nil => exact absurd rfl hne
  | cons c t =>
    obtain ⟨h1, h2⟩ := hd c (List.mem_cons_self c t)
    simp [goodHead, isWs]
    omega

/-- A decimal numeral has a good head. -/
theorem goodHead_printNat (n : Nat) : goodHead (printNat n) = true := by
  obtain ⟨c, t, heq, h1, h2⟩ := printNat_head n
  rw [heq]
  simp [goodHead, isWs]
  omega

/-- A good head survives appending. -/
theorem goodHead_append (s t : Str) (h : goodHead s = true) :
    goodHead (s ++ t) = true := by
  cases s with
  | nil => simp [goodHead] at h
  | cons c r => simpa [goodHead] using h

/-- Destructuring form of `goodHead`. -/
theorem goodHead_shape (s : Str) (h : goodHead s = true) :
    ∃ c t, s = c :: t ∧ isWs c = false ∧ ¬(c = 93) ∧ ¬(c = 125) := by
  cases s with
  | nil => simp [goodHead] at h
  | cons c t =>
    simp [goodHead] at h
    exact ⟨c, t, rfl, h.1.1, h.1.2, h.2⟩

/-- Every printed JSON value has a good head. -/
theorem goodHead_printVal (v : JVal) : goodHead (printVal v) = true := by
  cases v with
  | null => rfl
  | bool b => cases b <;> rfl
  | num i =>
    rw [printVal, printInt]
    by_cases hi : i < 0
    · rw [if_pos hi]
      obtain ⟨c, t, heq, h1, h2⟩ := printNat_head i.natAbs
      simp [goodHead, isWs]
    · rw [if_neg hi]
      exact goodHead_printNat i.toNat
  | str s => rfl
  | arr l => rfl
  | obj m => rfl
  | buf b => rfl

/-- `hasKey` distributes over append. -/
theorem hasKey_append {α : Type} (l1 l2 : List (Str × α)) (k : Str) :
    hasKey (l1 ++ l2) k = (hasKey l1 k || hasKey l2 k) := by
  induction l1 with
  | nil => simp [hasKey]
  | cons p tl ih => cases p; simp [hasKey, ih, Bool.or_assoc]

/-- If no entry has key `k`, every member's key differs from `k`. -/
theorem key_ne_of_hasKey_false {α : Type} (l : List (Str × α)) (k : Str)
    (h : hasKey l k = false) : ∀ p ∈ l, ¬(p.1 = k) := by
  induction l with
  | nil => intro p hp; cases hp
  | cons q tl ih =>
    cases q with
    | mk k' v =>
      simp [hasKey] at h
      intro p hp
      rcases List.mem_cons.mp hp with h1 | h1
      · rw [h1]; exact h.1
      · exact ih h.2 p h1

/-- Inserting a fresh key appends the entry at the end. -/
theorem upsert_of_hasKey_false {α : Type} (l : List (Str × α)) (k : Str) (v : α)
    (h : hasKey l k = false) : upsert l k v = l ++ [(k, v)] := by
  induction l with
  | nil => rfl
  | cons q tl ih =>
    cases q with
    | mk k' v' =>
      simp [hasKey] at h
      rw [upsert, if_neg h.1, ih h.2]
      simp

/-- Folding property assignments of pairwise-fresh keys over an accumulator
just appends them. -/
theorem collapse_go (m : List (Str × JVal)) :
    ∀ acc, keysNodup m = true → (∀ p ∈ m, hasKey acc p.1 = false) →
      List.foldl (fun a p => upsert a p.1 p.2) acc m = acc ++ m := by
  induction m with
  | nil => intro acc _ _; simp
  | cons q tl ih =>
    intro acc hnd hfresh
    cases q with
    | mk k v =>
      simp [keysNodup] at hnd
      have hk : hasKey acc k = false := hfresh (k, v) (List.mem_cons_self _ _)
      rw [List.foldl_cons]
      have hfresh2 : ∀ p ∈ tl, hasKey (upsert acc k v) p.1 = false := by
        intro p hp
        rw [upsert_of_hasKey_false acc k v hk, hasKey_append]
        have h1 : hasKey acc p.1 = false := hfresh p (List.mem_cons_of_mem _ hp)
        have h2 : ¬(p.1 = k) := by
          intro hpk
          have := key_ne_of_hasKey_false tl k hnd.1 p hp
          exact this hpk
        rw [h1]
        simp [hasKey]
        intro hk2
        exact h2 hk2.symm
      rw [ih (upsert acc k v) hnd.2 hfresh2, upsert_of_hasKey_false acc k v hk]
      simp

/-- Re-assembling an object whose keys are pairwise distinct reproduces the
member list unchanged. -/
theorem collapse_id (m : List (Str × JVal)) (h : keysNodup m = true) :
    collapse m = m := by
  have := collapse_go m [] h (by intro p _; rfl)
  simpa [collapse] using this

/-- A digit is not whitespace. -/
theorem isWs_false_of_digit (c : Nat) (hc : isDigit c = true) : isWs c = false := by
  simp [isDigit] at hc
  simp [isWs]
  omega

/-- Stepping the parser over the literal `null`. -/
theorem pv_null (f : Nat) (rest : Str) :
    parseVal (f + 1) (110 :: 117 :: 108 :: 108 :: rest) = some (JVal.null, rest) := by
  simp only [parseVal]
  rw [skipWs_cons_of_not_ws _ (show isWs 110 = false from rfl)]
  norm_num

/-- Stepping the parser over the literal `true`. -/
theorem pv_true (f : Nat) (rest : Str) :
    parseVal (f + 1) (116 :: 114 :: 117 :: 101 :: rest) = some (JVal.bool true, rest) := by
  simp only [parseVal]
  rw [skipWs_cons_of_not_ws _ (show isWs 116 = false from rfl)]
  norm_num

/-- Stepping the parser over the literal `false`. -/
theorem pv_false (f : Nat) (rest : Str) :
    parseVal (f + 1) (102 :: 97 :: 108 :: 115 :: 101 :: rest) = some (JVal.bool false, rest) := by
  simp only [parseVal]
  rw [skipWs_cons_of_not_ws _ (show isWs 102 = false from rfl)]
  norm_num

/-- Stepping the parser into a string literal. -/
theorem pv_str (f : Nat) (r : Str) :
    parseVal (f + 1) (34 :: r) = (parseStrAux r []).map (fun p => (JVal.str p.1, p.2)) := by
  simp only [parseVal]
  rw [skipWs_cons_of_not_ws _ (show isWs 34 = false from rfl)]
  norm_num

/-- Stepping the parser over an empty array literal. -/
theorem pv_arr_empty (f : Nat) (rest : Str) :
    parseVal (f + 1) (91 :: 93 :: rest) = some (JVal.arr [], rest) := by
  simp only [parseVal]
  rw [skipWs_cons_of_not_ws _ (show isWs 91 = false from rfl)]
  norm_num
  rw [skipWs_cons_of_not_ws _ (show isWs 93 = false from rfl)]

/-- Stepping the parser into a nonempty array literal. -/
theorem pv_arr_items (f : Nat) (r : Str) (h : goodHead r = true) :
    parseVal (f + 1) (91 :: r) = (parseArrItems f r).map (fun p => (JVal.arr p.1, p.2)) := by
  obtain ⟨c, t, heq, hws, h93, h125⟩ := goodHead_shape r h
  subst heq
  simp only [parseVal]
  rw [skipWs_cons_of_not_ws _ (show isWs 91 = false from rfl)]
  norm_num
  rw [skipWs_cons_of_not_ws _ hws]
  split
  · rename_i heq2
    injection heq2 with h1 h2
    omega
  · rfl

/-- Stepping the parser over an empty object literal. -/
theorem pv_obj_empty (f : Nat) (rest : Str) :
    parseVal (f + 1) (123 :: 125 :: rest) = some (JVal.obj [], rest) := by
  simp only [parseVal]
  rw [skipWs_cons_of_not_ws _ (show isWs 123 = false from rfl)]
  norm_num
  rw [skipWs_cons_of_not_ws _ (show isWs 125 = false from rfl)]

/-- Stepping the parser into a nonempty object literal. -/
theorem pv_obj_items (f : Nat) (r : Str) (h : goodHead r = true) :
    parseVal (f + 1) (123 :: r) =
      (parseObjItems f r).map (fun p => (JVal.obj (collapse p.1), p.2)) := by
  obtain ⟨c, t, heq, hws, h93, h125⟩ := goodHead_shape r h
  subst heq
  simp only [parseVal]
  rw [skipWs_cons_of_not_ws _ (show isWs 123 = false from rfl)]
  norm_num
  rw [skipWs_cons_of_not_ws _ hws]
  split
  · rename_i heq2
    injection heq2 with h1 h2
    omega
  · rfl

/-- Stepping the parser over an unsigned number. -/
theorem pv_digit (f : Nat) (c : Nat) (r : Str) (hc : isDigit c = true) :
    parseVal (f + 1) (c :: r) =
      some (JVal.num (((parseNatAux (c :: r) 0).1 : Nat) : Int), (parseNatAux (c :: r) 0).2) := by
  have hc' : 48 ≤ c ∧ c ≤ 57 := by simpa [isDigit] using hc
  simp only [parseVal]
  rw [skipWs_cons_of_not_ws _ (isWs_false_of_digit c hc)]
  simp only [if_neg (show ¬c = 110 by omega), if_neg (show ¬c = 116 by omega),
    if_neg (show ¬c = 102 by omega), if_neg (show ¬c = 34 by omega),
    if_neg (show ¬c = 91 by omega), if_neg (show ¬c = 123 by omega),
    if_neg (show ¬c = 45 by omega), if_pos hc]

/-- Stepping the parser over a negative number. -/
theorem pv_neg (f : Nat) (d : Nat) (r : Str) (hd : isDigit d = true) :
    parseVal (f + 1) (45 :: d :: r) =
      some (JVal.num (-((parseNatAux (d :: r) 0).1 : Int)), (parseNatAux (d :: r) 0).2) := by
  simp only [parseVal]
  rw [skipWs_cons_of_not_ws _ (show isWs 45 = false from rfl)]
  norm_num [hd]

/-- Number wrapper for `pv_digit` with the digit run pre-parsed. -/
theorem pv_digit2 (f c : Nat) (r : Str) (n : Nat) (rest2 : Str)
    (hc : isDigit c = true) (hp : parseNatAux (c :: r) 0 = (n, rest2)) :
    parseVal (f + 1) (c :: r) = some (JVal.num (n : Int), rest2) := by
  rw [pv_digit f c r hc, hp]

/-- Number wrapper for `pv_neg` with the digit run pre-parsed. -/
theorem pv_neg2 (f d : Nat) (r : Str) (n : Nat) (rest2 : Str)
    (hd : isDigit d = true) (hp : parseNatAux (d :: r) 0 = (n, rest2)) :
    parseVal (f + 1) (45 :: d :: r) = some (JVal.num (-(n : Int)), rest2) := by
  rw [pv_neg f d r hd, hp]

/-- Round trip of the modelled `JSON.parse` after the modelled
`JSON.stringify`: parsing a printed value (buffer-free, with pairwise-distinct
object keys) recovers the value exactly and leaves the remainder untouched.
Stated mutually for values, array items, and object member lists, by
induction on the parser fuel. -/
theorem parse_print_all : ∀ f : Nat,
    (∀ v rest, sizeJ v ≤ f → bufFree v = true → wfKeys v = true →
      headNotDigit rest = true → parseVal f (printVal v ++ rest) = some (v, rest))
    ∧ (∀ l rest, sizeL l ≤ f → l ≠ [] → bufFreeL l = true → wfKeysL l = true →
      parseArrItems f (printItems l ++ 93 :: rest) = some (l, rest))
    ∧ (∀ m rest, sizeM m ≤ f → m ≠ [] → bufFreeM m = true → wfKeysM m = true →
      parseObjItems f (printMembers m ++ 125 :: rest) = some (m, rest)) := by
  intro f
  induction f with
  | zero =>
    refine ⟨?_, ?_, ?_⟩
    · intro v rest hs _ _ _
      exact absurd hs (by have := sizeJ_pos v; omega)
    · intro l rest hs _ _ _
      exact absurd hs (by have := sizeL_pos l; omega)
    · intro m rest hs _ _ _
      exact absurd hs (by have := sizeM_pos m; omega)
  | succ f ih =>
    obtain ⟨ihV, ihA, ihO⟩ := ih
    refine ⟨?_, ?_, ?_⟩
    · intro v rest hs hbf hwf hrest
      cases v with
      | null => exact pv_null f rest
      | bool b => cases b
                  · exact pv_false f rest
                  · exact pv_true f rest
      | num i =>
        rw [show printVal (JVal.num i) = printInt i from rfl, printInt]
        by_cases hi : i < 0
        · rw [if_pos hi]
          obtain ⟨c, t, heq, h48, h57⟩ := printNat_head i.natAbs
          have hd : isDigit c = true := by simp [isDigit]; omega
          have hparse : parseNatAux (c :: (t ++ rest)) 0 = (i.natAbs, rest) := by
            have h := printNat_parse i.natAbs rest hrest
            rwa [heq, List.cons_append] at h
          have hshape : (45 :: printNat i.natAbs) ++ rest = 45 :: c :: (t ++ rest) := by
            rw [heq]
            simp
          rw [hshape, pv_neg2 f c (t ++ rest) i.natAbs rest hd hparse]
          have hval : -((i.natAbs : Nat) : Int) = i := by omega
          rw [hval]
        · rw [if_neg hi]
          obtain ⟨c, t, heq, h48, h57⟩ := printNat_head i.toNat
          have hd : isDigit c = true := by simp [isDigit]; omega
          have hparse : parseNatAux (c :: (t ++ rest)) 0 = (i.toNat, rest) := by
            have h := printNat_parse i.toNat rest hrest
            rwa [heq, List.cons_append] at h
          have hshape : printNat i.toNat ++ rest = c :: (t ++ rest) := by
            rw [heq]
            simp
          rw [hshape, pv_digit2 f c (t ++ rest) i.toNat rest hd hparse]
          have hval : ((i.toNat : Nat) : Int) = i := by omega
          rw [hval]
      | str s =>
        have hshape : printVal (JVal.str s) ++ rest = 34 :: (escBody s ++ 34 :: rest) := by
          simp [printVal, quoteStr]
        rw [hshape, pv_str, parseStrAux_round s [] rest]
        simp
      | arr l =>
        have hbf' : bufFreeL l = true := by simpa [bufFree] using hbf
        have hwf' : wfKeysL l = true := by simpa [wfKeys] using hwf
        have hsz : sizeL l ≤ f := by rw [show sizeJ (JVal.arr l) = sizeL l + 1 from rfl] at hs; omega
        cases l with
        | nil =>
          have hshape : printVal (JVal.arr []) ++ rest = 91 :: 93 :: rest := by
            simp [printVal, printItems]
          rw [hshape, pv_arr_empty]
        | cons v tl =>
          have hgh : goodHead (printItems (v :: tl) ++ 93 :: rest) = true := by
            refine goodHead_append _ _ ?_
            cases tl with
            | nil => exact goodHead_printVal v
            | cons w tl2 => exact goodHead_append _ _ (goodHead_printVal v)
          have hshape : printVal (JVal.arr (v :: tl)) ++ rest =
              91 :: (printItems (v :: tl) ++ 93 :: rest) := by
            simp [printVal]
          rw [hshape, pv_arr_items f _ hgh,
            ihA (v :: tl) rest hsz (by simp) hbf' hwf']
          rfl
      | obj m =>
        have hnd : keysNodup m = true := by
          have := hwf
          simp [wfKeys] at this
          exact this.1
        have hwfm : wfKeysM m = true := by
          have := hwf
          simp [wfKeys] at this
          exact this.2
        have hbf' : bufFreeM m = true := by simpa [bufFree] using hbf
        have hsz : sizeM m ≤ f := by rw [show sizeJ (JVal.obj m) = sizeM m + 1 from rfl] at hs; omega
        cases m with
        | nil =>
          have hshape : printVal (JVal.obj []) ++ rest = 123 :: 125 :: rest := by
            simp [printVal, printMembers]
          rw [hshape, pv_obj_empty]
        | cons kv tl =>
          have hgh : goodHead (printMembers (kv :: tl) ++ 125 :: rest) = true := by
            obtain ⟨k, v⟩ := kv
            cases tl with
            | nil => rfl
            | cons kv2 tl2 => rfl
          have hshape : printVal (JVal.obj (kv :: tl)) ++ rest =
              123 :: (printMembers (kv :: tl) ++ 125 :: rest) := by
            simp [printVal]
          rw [hshape, pv_obj_items f _ hgh,
            ihO (kv :: tl) rest hsz (by simp) hbf' hwfm]
          simp [collapse_id _ hnd]
      | buf b => simp [bufFree] at hbf
    · intro l rest hs hne hbf hwf
      cases l with
      | nil => exact absurd rfl hne
      | cons v tl =>
        have hbf1 : bufFree v = true := by simp [bufFreeL] at hbf; exact hbf.1
        have hbf2 : bufFreeL tl = true := by simp [bufFreeL] at hbf; exact hbf.2
        have hwf1 : wfKeys v = true := by simp [wfKeysL] at hwf; exact hwf.1
        have hwf2 : wfKeysL tl = true := by simp [wfKeysL] at hwf; exact hwf.2
        have hszv : sizeJ v ≤ f := by
          have := sizeL_pos tl
          rw [show sizeL (v :: tl) = sizeJ v + sizeL tl from rfl] at hs
          omega
        cases tl with
        | nil =>
          simp only [parseArrItems]
          rw [show printItems [v] = printVal v from rfl,
            ihV v (93 :: rest) hszv hbf1 hwf1 rfl]
          norm_num
          rw [skipWs_cons_of_not_ws _ (show isWs 93 = false from rfl)]
        | cons w tl2 =>
          have hszt : sizeL (w :: tl2) ≤ f := by
            have := sizeJ_pos v
            rw [show sizeL (v :: w :: tl2) = sizeJ v + sizeL (w :: tl2) from rfl] at hs
            omega
          have hshape : printItems (v :: w :: tl2) ++ 93 :: rest =
              printVal v ++ (44 :: (printItems (w :: tl2) ++ 93 :: rest)) := by
            rw [show printItems (v :: w :: tl2) = printVal v ++ 44 :: printItems (w :: tl2)
              from rfl]
            simp
          simp only [parseArrItems]
          rw [hshape, ihV v (44 :: (printItems (w :: tl2) ++ 93 :: rest)) hszv hbf1 hwf1 rfl]
          norm_num
          rw [skipWs_cons_of_not_ws _ (show isWs 44 = false from rfl)]
          norm_num
          rw [ihA (w :: tl2) rest hszt (by simp) hbf2 hwf2]
    · intro m rest hs hne hbf hwf
      cases m with
      | nil => exact absurd rfl hne
      | cons kv tl =>
        obtain ⟨k, v⟩ := kv
        have hbf1 : bufFree v = true := by simp [bufFreeM] at hbf; exact hbf.1
        have hbf2 : bufFreeM tl = true := by simp [bufFreeM] at hbf; exact hbf.2
        have hwf1 : wfKeys v = true := by simp [wfKeysM] at hwf; exact hwf.1
        have hwf2 : wfKeysM tl = true := by simp [wfKeysM] at hwf; exact hwf.2
        have hszv : sizeJ v ≤ f := by
          have := sizeM_pos tl
          rw [show sizeM ((k, v) :: tl) = sizeJ v + sizeM tl from rfl] at hs
          omega
        cases tl with
        | nil =>
          have hshape : printMembers [(k, v)] ++ 125 :: rest =
              34 :: (escBody k ++ 34 :: 58 :: (printVal v ++ 125 :: rest)) := by
            rw [show printMembers [(k, v)] = quoteStr k ++ 58 :: printVal v from rfl, quoteStr]
            simp
          simp only [parseObjItems]
          rw [hshape, skipWs_cons_of_not_ws _ (show isWs 34 = false from rfl)]
          norm_num
          rw [parseStrAux_round k [] _]
          norm_num
          rw [skipWs_cons_of_not_ws _ (show isWs 58 = false from rfl)]
          norm_num
          rw [ihV v (125 :: rest) hszv hbf1 hwf1 rfl]
          norm_num
          rw [skipWs_cons_of_not_ws _ (show isWs 125 = false from rfl)]
        | cons kv2 tl2 =>
          have hszt : sizeM (kv2 :: tl2) ≤ f := by
            have := sizeJ_pos v
            rw [show sizeM ((k, v) :: kv2 :: tl2) = sizeJ v + sizeM (kv2 :: tl2) from rfl] at hs
            omega
          have hshape : printMembers ((k, v) :: kv2 :: tl2) ++ 125 :: rest =
              34 :: (escBody k ++ 34 ::
                58 :: (printVal v ++ 44 :: (printMembers (kv2 :: tl2) ++ 125 :: rest))) := by
            rw [show printMembers ((k, v) :: kv2 :: tl2) =
              quoteStr k ++ 58 :: printVal v ++ 44 :: printMembers (kv2 :: tl2) from rfl, quoteStr]
            simp
          simp only [parseObjItems]
          rw [hshape, skipWs_cons_of_not_ws _ (show isWs 34 = false from rfl)]
          norm_num
          rw [parseStrAux_round k [] _]
          norm_num
          rw [skipWs_cons_of_not_ws _ (show isWs 58 = false from rfl)]
          norm_num
          rw [ihV v (44 :: (printMembers (kv2 :: tl2) ++ 125 :: rest)) hszv hbf1 hwf1 rfl]
          norm_num
          rw [skipWs_cons_of_not_ws _ (show isWs 44 = false from rfl)]
          norm_num
          rw [ihO (kv2 :: tl2) rest hszt (by simp) hbf2 hwf2]

/-- A printed numeral is nonempty. -/
theorem printNat_length_pos (n : Nat) : 1 ≤ (printNat n).length := by
  obtain ⟨c, t, heq, _, _⟩ := printNat_head n
  simp [heq]

mutual

/-- The size of a value never exceeds the length of its printed form. -/
theorem sizeJ_le_printVal : ∀ v : JVal, sizeJ v ≤ (printVal v).length
  | JVal.null => by simp [sizeJ, printVal]
  | JVal.bool b => by cases b <;> simp [sizeJ, printVal]
  | JVal.num i => by
    have h : 1 ≤ (printInt i).length := by
      rw [printInt]
      by_cases hi : i < 0
      · rw [if_pos hi]; simp
      · rw [if_neg hi]; exact printNat_length_pos i.toNat
    simpa [sizeJ, printVal] using h
  | JVal.str s => by simp [sizeJ, printVal, quoteStr]
  | JVal.arr l => by
    have h := sizeL_le_printItems l
    simp only [sizeJ, printVal, List.length_cons, List.length_append]
    simp at h ⊢
    omega
  | JVal.obj m => by
    have h := sizeM_le_printMembers m
    simp only [sizeJ, printVal, List.length_cons, List.length_append]
    simp at h ⊢
    omega
  | JVal.buf _ => by simp [sizeJ, printVal]

/-- List version of `sizeJ_le_printVal` (one slack unit for the brackets). -/
theorem sizeL_le_printItems : ∀ l : List JVal, sizeL l ≤ (printItems l).length + 1
  | [] => by simp [sizeL, printItems]
  | [v] => by
    have h := sizeJ_le_printVal v
    simp only [sizeL, printItems]
    simp
    omega
  | v :: w :: tl => by
    have h1 := sizeJ_le_printVal v
    have h2 := sizeL_le_printItems (w :: tl)
    simp only [sizeL, printItems] at h2 ⊢
    simp at h2 ⊢
    omega

/-- Member-list version of `sizeJ_le_printVal`. -/
theorem sizeM_le_printMembers : ∀ m : List (Str × JVal), sizeM m ≤ (printMembers m).length + 1
  | [] => by simp [sizeM, printMembers]
  | [(k, v)] => by
    have h := sizeJ_le_printVal v
    simp only [sizeM, printMembers]
    simp
    omega
  | (k, v) :: kv2 :: tl => by
    have h1 := sizeJ_le_printVal v
    have h2 := sizeM_le_printMembers (kv2 :: tl)
    simp only [sizeM, printMembers] at h2 ⊢
    simp at h2 ⊢
    omega

end

/-- Complete-text round trip of the modelled codec: `JSON.parse` inverts
`JSON.stringify` on buffer-free values with distinct object keys. -/
theorem jsonParse_print (v : JVal) (hbf : bufFree v = true) (hwf : wfKeys v = true) :
    jsonParse (printVal v) = some v := by
  have hfuel : sizeJ v ≤ (printVal v).length + 1 := by
    have := sizeJ_le_printVal v
    omega
  have h := (parse_print_all ((printVal v).length + 1)).1 v [] hfuel hbf hwf rfl
  rw [List.append_nil] at h
  rw [jsonParse, h]
  rfl

/-- The resolver decodes a sentinel-tagged string (helper shared by the
reviver lemmas). -/
theorem importResolver_tagged (rest : Str) :
    importResolver (JVal.str (sentinel ++ rest)) = JVal.buf (str2ab rest) := by
  simp [importResolver, sentinel, List.isPrefixOf]

/-- Decoding the encoding, without a byte-range hypothesis: the bytes come
back truncated to 8 bits and padded with zeros. -/
theorem str2ab_ab2str (b : List Nat) :
    str2ab (ab2str b) = b.map (fun x => x % 256) ++ List.replicate b.length 0 := by
  unfold str2ab ab2str
  rw [List.map_map, List.length_map]
  congr 1
  apply List.map_congr_left
  intro x _
  simp only [Function.comp_apply]
  rw [Nat.mod_mod_of_dvd x (by norm_num : (256 : Nat) ∣ 65536)]

mutual

/-- The replacer pass leaves no ArrayBuffer behind. -/
theorem bufFree_exportReplace : ∀ v : JVal, bufFree (exportReplace v) = true
  | JVal.null => rfl
  | JVal.bool _ => rfl
  | JVal.num _ => rfl
  | JVal.str _ => rfl
  | JVal.arr l => by
    rw [show exportReplace (JVal.arr l) = JVal.arr (exportReplaceL l) from rfl]
    exact bufFreeL_exportReplaceL l
  | JVal.obj m => by
    rw [show exportReplace (JVal.obj m) = JVal.obj (exportReplaceM m) from rfl]
    exact bufFreeM_exportReplaceM m
  | JVal.buf _ => rfl

/-- List version of `bufFree_exportReplace`. -/
theorem bufFreeL_exportReplaceL : ∀ l : List JVal, bufFreeL (exportReplaceL l) = true
  | [] => rfl
  | v :: tl => by
    rw [show exportReplaceL (v :: tl) = exportReplace v :: exportReplaceL tl from rfl]
    rw [show bufFreeL (exportReplace v :: exportReplaceL tl) =
      (bufFree (exportReplace v) && bufFreeL (exportReplaceL tl)) from rfl]
    rw [bufFree_exportReplace v, bufFreeL_exportReplaceL tl]
    rfl

/-- Member version of `bufFree_exportReplace`. -/
theorem bufFreeM_exportReplaceM : ∀ m : List (Str × JVal), bufFreeM (exportReplaceM m) = true
  | [] => rfl
  | (k, v) :: tl => by
    rw [show exportReplaceM ((k, v) :: tl) = (k, exportReplace v) :: exportReplaceM tl from rfl]
    rw [show bufFreeM ((k, exportReplace v) :: exportReplaceM tl) =
      (bufFree (exportReplace v) && bufFreeM (exportReplaceM tl)) from rfl]
    rw [bufFree_exportReplace v, bufFreeM_exportReplaceM tl]
    rfl

end

/-- The replacer pass keeps object keys unchanged. -/
theorem hasKey_exportReplaceM (m : List (Str × JVal)) (k : Str) :
    hasKey (exportReplaceM m) k = hasKey m k := by
  induction m with
  | nil => rfl
  | cons kv tl ih =>
    obtain ⟨k', v⟩ := kv
    rw [show exportReplaceM ((k', v) :: tl) = (k', exportReplace v) :: exportReplaceM tl from rfl]
    simp [hasKey, ih]

/-- The replacer pass preserves distinctness of object keys. -/
theorem keysNodup_exportReplaceM (m : List (Str × JVal)) (h : keysNodup m = true) :
    keysNodup (exportReplaceM m) = true := by
  induction m with
  | nil => rfl
  | cons kv tl ih =>
    obtain ⟨k', v⟩ := kv
    simp [keysNodup] at h
    rw [show exportReplaceM ((k', v) :: tl) = (k', exportReplace v) :: exportReplaceM tl from rfl]
    simp [keysNodup, hasKey_exportReplaceM, h.1, ih h.2]

mutual

/-- The replacer pass preserves well-formedness of object keys. -/
theorem wfKeys_exportReplace : ∀ v : JVal, wfKeys v = true → wfKeys (exportReplace v) = true
  | JVal.null => fun _ => rfl
  | JVal.bool _ => fun _ => rfl
  | JVal.num _ => fun _ => rfl
  | JVal.str _ => fun _ => rfl
  | JVal.arr l => fun h => by
    rw [show exportReplace (JVal.arr l) = JVal.arr (exportReplaceL l) from rfl]
    rw [show wfKeys (JVal.arr (exportReplaceL l)) = wfKeysL (exportReplaceL l) from rfl]
    exact wfKeysL_exportReplaceL l (by simpa [wfKeys] using h)
  | JVal.obj m => fun h => by
    have h' : keysNodup m = true ∧ wfKeysM m = true := by simpa [wfKeys] using h
    rw [show exportReplace (JVal.obj m) = JVal.obj (exportReplaceM m) from rfl]
    rw [show wfKeys (JVal.obj (exportReplaceM m)) =
      (keysNodup (exportReplaceM m) && wfKeysM (exportReplaceM m)) from rfl]
    rw [keysNodup_exportReplaceM m h'.1, wfKeysM_exportReplaceM m h'.2]
    rfl
  | JVal.buf _ => fun _ => rfl

/-- List version of `wfKeys_exportReplace`. -/
theorem wfKeysL_exportReplaceL : ∀ l : List JVal, wfKeysL l = true →
    wfKeysL (exportReplaceL l) = true
  | [] => fun _ => rfl
  | v :: tl => fun h => by
    have h' : wfKeys v = true ∧ wfKeysL tl = true := by simpa [wfKeysL] using h
    rw [show exportReplaceL (v :: tl) = exportReplace v :: exportReplaceL tl from rfl]
    rw [show wfKeysL (exportReplace v :: exportReplaceL tl) =
      (wfKeys (exportReplace v) && wfKeysL (exportReplaceL tl)) from rfl]
    rw [wfKeys_exportReplace v h'.1, wfKeysL_exportReplaceL tl h'.2]
    rfl

/-- Member version of `wfKeys_exportReplace`. -/
theorem wfKeysM_exportReplaceM : ∀ m : List (Str × JVal), wfKeysM m = true →
    wfKeysM (exportReplaceM m) = true
  | [] => fun _ => rfl
  | (k, v) :: tl => fun h => by
    have h' : wfKeys v = true ∧ wfKeysM tl = true := by simpa [wfKeysM] using h
    rw [show exportReplaceM ((k, v) :: tl) = (k, exportReplace v) :: exportReplaceM tl from rfl]
    rw [show wfKeysM ((k, exportReplace v) :: exportReplaceM tl) =
      (wfKeys (exportReplace v) && wfKeysM (exportReplaceM tl)) from rfl]
    rw [wfKeys_exportReplace v h'.1, wfKeysM_exportReplaceM tl h'.2]
    rfl

end

mutual

/-- Reviving the replaced value yields exactly the round-trip skew: buffers
come back truncated-and-padded, everything else (absent sentinel collisions)
is untouched. -/
theorem revive_replace : ∀ v : JVal, noColl v = true →
    importRevive (exportReplace v) = skew v
  | JVal.null => fun _ => rfl
  | JVal.bool _ => fun _ => rfl
  | JVal.num _ => fun _ => rfl
  | JVal.str s => fun h => by
    have hp : sentinel.isPrefixOf s = false := by simpa [noColl] using h
    rw [show exportReplace (JVal.str s) = JVal.str s from rfl,
      show importRevive (JVal.str s) = importResolver (JVal.str s) from rfl,
      show skew (JVal.str s) = JVal.str s from rfl]
    simp [importResolver, hp]
  | JVal.arr l => fun h => by
    have h' : noCollL l = true := by simpa [noColl] using h
    rw [show exportReplace (JVal.arr l) = JVal.arr (exportReplaceL l) from rfl,
      show importRevive (JVal.arr (exportReplaceL l)) =
        importResolver (JVal.arr (importReviveL (exportReplaceL l))) from rfl,
      show importResolver (JVal.arr (importReviveL (exportReplaceL l))) =
        JVal.arr (importReviveL (exportReplaceL l)) from rfl,
      show skew (JVal.arr l) = JVal.arr (skewL l) from rfl,
      reviveL_replaceL l h']
  | JVal.obj m => fun h => by
    have h' : noCollM m = true := by simpa [noColl] using h
    rw [show exportReplace (JVal.obj m) = JVal.obj (exportReplaceM m) from rfl,
      show importRevive (JVal.obj (exportReplaceM m)) =
        importResolver (JVal.obj (importReviveM (exportReplaceM m))) from rfl,
      show importResolver (JVal.obj (importReviveM (exportReplaceM m))) =
        JVal.obj (importReviveM (exportReplaceM m)) from rfl,
      show skew (JVal.obj m) = JVal.obj (skewM m) from rfl,
      reviveM_replaceM m h']
  | JVal.buf b => fun _ => by
    rw [show exportReplace (JVal.buf b) = JVal.str (sentinel ++ ab2str b) from rfl,
      show importRevive (JVal.str (sentinel ++ ab2str b)) =
        importResolver (JVal.str (sentinel ++ ab2str b)) from rfl,
      importResolver_tagged (ab2str b), str2ab_ab2str b]
    rfl

/-- List version of `revive_replace`. -/
theorem reviveL_replaceL : ∀ l : List JVal, noCollL l = true →
    importReviveL (exportReplaceL l) = skewL l
  | [] => fun _ => rfl
  | v :: tl => fun h => by
    have h' : noColl v = true ∧ noCollL tl = true := by simpa [noCollL] using h
    rw [show exportReplaceL (v :: tl) = exportReplace v :: exportReplaceL tl from rfl,
      show importReviveL (exportReplace v :: exportReplaceL tl) =
        importRevive (exportReplace v) :: importReviveL (exportReplaceL tl) from rfl,
      show skewL (v :: tl) = skew v :: skewL tl from rfl,
      revive_replace v h'.1, reviveL_replaceL tl h'.2]

/-- Member version of `revive_replace`. -/
theorem reviveM_replaceM : ∀ m : List (Str × JVal), noCollM m = true →
    importReviveM (exportReplaceM m) = skewM m
  | [] => fun _ => rfl
  | (k, v) :: tl => fun h => by
    have h' : noColl v = true ∧ noCollM tl = true := by simpa [noCollM] using h
    rw [show exportReplaceM ((k, v) :: tl) = (k, exportReplace v) :: exportReplaceM tl from rfl,
      show importReviveM ((k, exportReplace v) :: exportReplaceM tl) =
        (k, importRevive (exportReplace v)) :: importReviveM (exportReplaceM tl) from rfl,
      show skewM ((k, v) :: tl) = (k, skew v) :: skewM tl from rfl,
      revive_replace v h'.1, reviveM_replaceM tl h'.2]

end

/-- An IndexedDB database handle as this library sees it: the ordered list of
its object stores, each store a name together with the records a forward
cursor yields, in iteration order.  `db.objectStoreNames` is `storeNames`;
store names are unique in a real database. -/
structure DB where
  stores : List (Str × List JVal)

/-- `idbDatabase.objectStoreNames`. -/
def storeNames (db : DB) : List Str := db.stores.map Prod.fst

/-- The records of the named store in cursor order (what the cursor loop of
source lines 20-25 accumulates into `allObjects`); empty for a name that is
not a store. -/
def lookupStore (db : DB) (n : Str) : List JVal := (lookupKey db.stores n).getD []

/-- The export document for a list of installed entries: the JavaScript
object whose properties are the store names mapped to record arrays. -/
def docOf (eo : List (Str × List JVal)) : JVal :=
  JVal.obj (eo.map (fun p => (p.1, JVal.arr p.2)))

/-- `JSON.stringify(exportObject, exportReplacer)` (source line 28) on the
export document holding the given entries. -/
def serializeDoc (eo : List (Str × List JVal)) : Str :=
  printVal (exportReplace (docOf eo))

/-- Engine events delivered to `exportToJsonString`'s handlers: the final
cursor success of one store (its `allObjects` is complete and gets installed,
source lines 25-30), or a transaction error (source lines 15-17).
Intermediate cursor steps only grow the store-local `allObjects` and are
absorbed into `lookupStore`. -/
inductive ExEvent where
  | complete (n : Str) : ExEvent
  | txError (e : Err) : ExEvent

/-- The callback invocations `exportToJsonString` performs while processing
the event stream, threading `exportObject` (source lines 18-32): a completion
installs the store's records (property assignment) and, when the number of
keys reaches the declared store count, fires `cb(null, JSON.stringify(...))`;
a transaction error fires `cb(event, null)`. -/
def exportCallsAux (db : DB) : List ExEvent → List (Str × List JVal) → List (Option Err × Option Str)
  | [], _ => []
  | ExEvent.complete n :: evs, eo =>
    (if (storeNames db).length = (upsert eo n (lookupStore db n)).length
      then [(none, some (serializeDoc (upsert eo n (lookupStore db n))))] else []) ++
      exportCallsAux db evs (upsert eo n (lookupStore db n))
  | ExEvent.txError e :: evs, eo => (some e, none) :: exportCallsAux db evs eo

/-- `exportToJsonString` (source lines 9-34): with zero declared stores it
calls back immediately with `JSON.stringify({})` (lines 11-12); otherwise it
opens the transaction and reacts to engine events starting from an empty
`exportObject`. -/
def runExport (db : DB) (evs : List ExEvent) : List (Option Err × Option Str) :=
  if (storeNames db).length = 0 then [(none, some (printVal (JVal.obj [])))]
  else exportCallsAux db evs []

/-- Engine events delivered to `importFromJsonString`'s handlers: the success
of one `add` request issued for the named store (source lines 110-118), or a
transaction error (source lines 103-105). -/
inductive ImEvent where
  | addOk (n : Str) : ImEvent
  | txError (e : Err) : ImEvent

/-- The member list of the parsed import document (property access on a
non-object yields nothing). -/
def docEntries : JVal → List (Str × JVal)
  | JVal.obj m => m
  | _ => []

/-- The callback invocations `importFromJsonString` performs while processing
the event stream, threading the parsed `importObject` and the per-store
closure counters `count` (source lines 107-120): an add success bumps the
store's counter; when it reaches `importObject[storeName].length` the store's
key is deleted and, if no keys remain, `cb(null)` fires; a transaction error
fires `cb(event)`.  An add success for a store whose document entry is not a
record array cannot arise from a request the code issued and is a no-op
here. -/
def importCallsAux : List ImEvent → List (Str × JVal) → (Str → Nat) → List (Option Err)
  | [], _, _ => []
  | ImEvent.addOk n :: evs, doc, counts =>
    (match lookupKey doc n with
    | some (JVal.arr l) =>
      if counts n + 1 = l.length then
        (if (eraseKey doc n).length = 0 then [none] else []) ++
          importCallsAux evs (eraseKey doc n) (fun m => if m = n then counts n + 1 else counts m)
      else importCallsAux evs doc (fun m => if m = n then counts n + 1 else counts m)
    | _ => importCallsAux evs doc (fun m => if m = n then counts n + 1 else counts m))
  | ImEvent.txError e :: evs, doc, counts => some e :: importCallsAux evs doc counts

/-- The records the import loop feeds to `add` requests, per declared store
(source lines 107-110): for every name of the database, the record array the
parsed document holds under that name (nothing when absent or not an
array). -/
def importRecordsOf (names : List Str) (doc : List (Str × JVal)) : List (Str × List JVal) :=
  names.map (fun n =>
    (n, match lookupKey doc n with
        | some (JVal.arr l) => l
        | _ => []))

/-- `importFromJsonString` (source lines 101-121): installs the transaction
handlers, then parses the text with the reviver (line 106) — a parse failure
is the `SyntaxError` of `JSON.parse`, thrown synchronously to the caller and
modelled as `Except.error`, with no callback invocation possible; on success
it issues the adds and reacts to engine events.  The result carries both the
records issued per store and the callback invocations. -/
def runImport (db : DB) (jsonString : Str) (evs : List ImEvent) :
    Except Unit (List (Str × List JVal) × List (Option Err)) :=
  match jsonParse jsonString with
  | none => Except.error ()
  | some v =>
    Except.ok (importRecordsOf (storeNames db) (docEntries (importRevive v)),
      importCallsAux evs (docEntries (importRevive v)) (fun _ => 0))

/-- Engine events delivered to `clearDatabase`'s handlers: one store's
`clear()` success (source lines 149-153), or a transaction error (source
lines 144-146). -/
inductive ClEvent where
  | cleared : ClEvent
  | txError (e : Err) : ClEvent

/-- The callback invocations `clearDatabase` performs while processing the
event stream, threading the shared counter `count` (source lines 147-154): a
clear success bumps it and fires `cb(null)` exactly when it reaches the
declared store count; a transaction error fires `cb(event)`. -/
def clearCallsAux (db : DB) : List ClEvent → Nat → List (Option Err)
  | [], _ => []
  | ClEvent.cleared :: evs, count =>
    (if count + 1 = (storeNames db).length then [none] else []) ++
      clearCallsAux db evs (count + 1)
  | ClEvent.txError e :: evs, count => some e :: clearCallsAux db evs count

/-- `clearDatabase` (source lines 142-155): no special case for an empty
database — the counter starts at 0 and is only compared inside clear-success
handlers. -/
def runClear (db : DB) (evs : List ClEvent) : List (Option Err) :=
  clearCallsAux db evs 0

/-- The canonical export text of a database: the serialization the export
callback delivers (its key order is the completion order; this is the
in-order one). -/
def exportText (db : DB) : Str := serializeDoc db.stores

/-- A database whose export document is well formed: store names and record
object keys are pairwise distinct, and no record string collides with the
sentinel. -/
def dbOk (db : DB) : Bool := wfKeys (docOf db.stores) && noColl (docOf db.stores)

/-- One full round trip at the data level: export the database, parse the
text with the reviver as import does, and collect the records import feeds to
`add`, per store (`none` when the text fails to parse). -/
def roundTripResult (db : DB) : Option (List (Str × List JVal)) :=
  match runImport db (exportText db) [] with
  | Except.ok p => some p.1
  | Except.error _ => none

/-- `skewL` is the elementwise map of `skew`. -/
theorem skewL_map (l : List JVal) : skewL l = l.map skew := by
  induction l with
  | nil => rfl
  | cons v tl ih =>
    rw [show skewL (v :: tl) = skew v :: skewL tl from rfl, ih, List.map_cons]

/-- The round-trip skew of an export document skews each store's records. -/
theorem skew_docOf (st : List (Str × List JVal)) :
    skew (docOf st) = docOf (st.map (fun p => (p.1, p.2.map skew))) := by
  rw [show skew (docOf st) = JVal.obj (skewM (st.map (fun p => (p.1, JVal.arr p.2)))) from rfl]
  rw [docOf, List.map_map]
  congr 1
  induction st with
  | nil => rfl
  | cons hd tl ih =>
    obtain ⟨k, rs⟩ := hd
    rw [List.map_cons,
      show skewM ((k, JVal.arr rs) :: tl.map (fun p => (p.1, JVal.arr p.2))) =
        (k, skew (JVal.arr rs)) :: skewM (tl.map (fun p => (p.1, JVal.arr p.2))) from rfl,
      ih,
      show skew (JVal.arr rs) = JVal.arr (skewL rs) from rfl, skewL_map]
    rfl

/-- Rewriting every value in an association list leaves `hasKey` unchanged. -/
theorem hasKey_mapSnd {α β : Type} (g : Str → α → β) (st : List (Str × α)) (k : Str) :
    hasKey (st.map (fun p => (p.1, g p.1 p.2))) k = hasKey st k := by
  induction st with
  | nil => rfl
  | cons hd tl ih =>
    obtain ⟨k', v⟩ := hd
    simp [hasKey, ih]

/-- Rewriting every value in an association list leaves `keysNodup`
unchanged. -/
theorem keysNodup_mapSnd {α β : Type} (g : Str → α → β) (st : List (Str × α)) :
    keysNodup (st.map (fun p => (p.1, g p.1 p.2))) = keysNodup st := by
  induction st with
  | nil => rfl
  | cons hd tl ih =>
    obtain ⟨k', v⟩ := hd
    simp [keysNodup, hasKey_mapSnd, ih]

/-- Collecting the per-store record arrays of a document that has exactly one
array entry per name reproduces the store list. -/
theorem importRecordsOf_self : ∀ st : List (Str × List JVal), keysNodup st = true →
    importRecordsOf (st.map Prod.fst) (st.map (fun p => (p.1, JVal.arr p.2))) = st := by
  intro st
  induction st with
  | nil => intro _; rfl
  | cons hd tl ih =>
    obtain ⟨k, rs⟩ := hd
    intro h
    simp only [keysNodup, Bool.and_eq_true, Bool.not_eq_eq_eq_not, Bool.not_true] at h
    rw [List.map_cons, List.map_cons, importRecordsOf, List.map_cons]
    have hhead : lookupKey ((k, JVal.arr rs) :: tl.map (fun p => (p.1, JVal.arr p.2))) k =
        some (JVal.arr rs) := by
      rw [lookupKey, if_pos rfl]
    rw [hhead]
    have htail : ∀ n ∈ tl.map Prod.fst,
        lookupKey ((k, JVal.arr rs) :: tl.map (fun p => (p.1, JVal.arr p.2))) n =
          lookupKey (tl.map (fun p => (p.1, JVal.arr p.2))) n := by
      intro n hn
      obtain ⟨p, hp, hpn⟩ := List.mem_map.mp hn
      have hne : ¬(k = n) := by
        intro hk
        exact key_ne_of_hasKey_false tl k h.1 p hp (by rw [hpn, hk])
      rw [lookupKey, if_neg hne]
    have hmap : (tl.map Prod.fst).map (fun n =>
        (n, match lookupKey ((k, JVal.arr rs) :: tl.map (fun p => (p.1, JVal.arr p.2))) n with
            | some (JVal.arr l) => l
            | _ => [])) =
        (tl.map Prod.fst).map (fun n =>
        (n, match lookupKey (tl.map (fun p => (p.1, JVal.arr p.2))) n with
            | some (JVal.arr l) => l
            | _ => [])) := by
      apply List.map_congr_left
      intro n hn
      rw [htail n hn]
    rw [hmap]
    have := ih h.2
    rw [importRecordsOf] at this
    rw [this]

/-- Round trip, corrected: exporting a well-formed database and importing the
text into a schema-identical database feeds every store exactly its original
records, except that every ArrayBuffer of `n` bytes comes back as its bytes
followed by `n` zero bytes (the decoder's double-length allocation); with no
buffers present the records are reproduced exactly. -/
theorem roundtrip_records (db : DB) (h : dbOk db = true) :
    roundTripResult db = some (db.stores.map (fun p => (p.1, p.2.map skew))) := by
  have h2 : wfKeys (docOf db.stores) = true ∧ noColl (docOf db.stores) = true := by
    simpa [dbOk] using h
  have hparse : jsonParse (exportText db) = some (exportReplace (docOf db.stores)) :=
    jsonParse_print _ (bufFree_exportReplace _) (wfKeys_exportReplace _ h2.1)
  have hnodup : keysNodup db.stores = true := by
    have hw := h2.1
    simp only [wfKeys, docOf, Bool.and_eq_true] at hw
    have := hw.1
    rwa [keysNodup_mapSnd (fun _ rs => JVal.arr rs) db.stores] at this
  have hnodup2 : keysNodup (db.stores.map (fun p => (p.1, p.2.map skew))) = true := by
    rwa [keysNodup_mapSnd (fun _ rs => rs.map skew) db.stores]
  have hrun : runImport db (exportText db) [] =
      Except.ok (db.stores.map (fun p => (p.1, p.2.map skew)), []) := by
    rw [runImport, hparse]
    rw [show (match some (exportReplace (docOf db.stores)) with
      | none => (Except.error () : Except Unit (List (Str × List JVal) × List (Option Err)))
      | some v =>
        Except.ok (importRecordsOf (storeNames db) (docEntries (importRevive v)),
          importCallsAux [] (docEntries (importRevive v)) (fun _ => 0))) =
      Except.ok (importRecordsOf (storeNames db)
          (docEntries (importRevive (exportReplace (docOf db.stores)))),
        importCallsAux [] (docEntries (importRevive (exportReplace (docOf db.stores))))
          (fun _ => 0)) from rfl]
    rw [revive_replace _ h2.2, skew_docOf]
    rw [show docEntries (docOf (db.stores.map (fun p => (p.1, p.2.map skew)))) =
      (db.stores.map (fun p => (p.1, p.2.map skew))).map (fun p => (p.1, JVal.arr p.2))
      from rfl]
    rw [show storeNames db = (db.stores.map (fun p => (p.1, p.2.map skew))).map Prod.fst by
      simp [storeNames]]
    rw [importRecordsOf_self _ hnodup2]
    rfl
  rw [roundTripResult, hrun]

/-- The one-store database holding the single one-byte buffer record used to
refute the round-trip claim as stated. -/
def dbBuf : DB := ⟨[([97], [JVal.buf [0]])]⟩

/-- The round-trip claim as stated is false: the byte buffer `[0]` comes back
as `[0, 0]`, so the imported records do not equal the original ones by byte
content. -/
theorem roundtrip_claim_counterexample :
    roundTripResult dbBuf = some [([97], [JVal.buf [0, 0]])]
    ∧ roundTripResult dbBuf ≠ some dbBuf.stores := by
  constructor
  · rfl
  · intro hcontra
    rw [show roundTripResult dbBuf = some [([97], [JVal.buf [0, 0]])] from rfl] at hcontra
    simp [dbBuf] at hcontra

/-- The spec's concrete scenario: store `"a"` with records `{id:1, v:"x"}`
and `{id:2, buf:<bytes 0,255,16>}`, store `"b"` empty. -/
def dbScenario : DB :=
  ⟨[([97], [JVal.obj [([105, 100], JVal.num 1), ([118], JVal.str [120])],
            JVal.obj [([105, 100], JVal.num 2), ([98, 117, 102], JVal.buf [0, 255, 16])]]),
    ([98], [])]⟩

/-- Concrete instance of `roundtrip_records` on the spec's scenario
database. -/
theorem roundtrip_records_witness :
    dbOk dbScenario = true
    ∧ roundTripResult dbScenario =
        some (dbScenario.stores.map (fun p => (p.1, p.2.map skew))) :=
  ⟨rfl, roundtrip_records dbScenario rfl⟩

/-- A property write grows the object by at most one key. -/
theorem upsert_length_le {α : Type} : ∀ (l : List (Str × α)) (k : Str) (v : α),
    (upsert l k v).length ≤ l.length + 1 := by
  intro l
  induction l with
  | nil => intro k v; simp [upsert]
  | cons hd tl ih =>
    intro k v
    obtain ⟨k', v'⟩ := hd
    rw [upsert]
    by_cases h : k' = k
    · rw [if_pos h]; simp
    · rw [if_neg h]
      have := ih k v
      simp
      omega

/-- While fewer stores have completed than the database declares, the export
callback does not fire. -/
theorem exportCallsAux_no_call (db : DB) : ∀ (os : List Str) (eo : List (Str × List JVal)),
    eo.length + os.length < (storeNames db).length →
    exportCallsAux db (os.map ExEvent.complete) eo = [] := by
  intro os
  induction os with
  | nil => intro eo _; rfl
  | cons n os' ih =>
    intro eo hlen
    rw [List.map_cons, exportCallsAux]
    have hub := upsert_length_le eo n (lookupStore db n)
    rw [if_neg (by simp at hlen ⊢; omega)]
    rw [ih (upsert eo n (lookupStore db n)) (by simp at hlen ⊢; omega)]
    rfl

/-- When the pending stores are fresh, pairwise distinct, and exactly fill
the declared count, the export run fires the callback exactly once — at the
final completion — with the document holding one entry per store in
completion order. -/
theorem exportCallsAux_full (db : DB) : ∀ (os : List Str) (eo : List (Str × List JVal)),
    os ≠ [] → os.Nodup → (∀ n ∈ os, hasKey eo n = false) →
    eo.length + os.length = (storeNames db).length →
    exportCallsAux db (os.map ExEvent.complete) eo =
      [(none, some (serializeDoc (eo ++ os.map (fun n => (n, lookupStore db n)))))] := by
  intro os
  induction os with
  | nil => intro eo h; exact absurd rfl h
  | cons n os' ih =>
    intro eo _ hnd hfresh hlen
    have hkey : hasKey eo n = false := hfresh n (List.mem_cons_self _ _)
    have hup : upsert eo n (lookupStore db n) = eo ++ [(n, lookupStore db n)] :=
      upsert_of_hasKey_false eo n _ hkey
    rw [List.map_cons, exportCallsAux, hup]
    cases os' with
    | nil =>
      rw [if_pos (by simp at hlen ⊢; omega)]
      rw [show exportCallsAux db (List.map ExEvent.complete []) (eo ++ [(n, lookupStore db n)]) =
        [] from rfl]
      simp
    | cons n2 os2 =>
      rw [if_neg (by simp at hlen ⊢; omega)]
      have hnd' : (n2 :: os2).Nodup := (List.nodup_cons.mp hnd).2
      have hn : ¬n ∈ n2 :: os2 := (List.nodup_cons.mp hnd).1
      have hfresh' : ∀ m ∈ n2 :: os2, hasKey (eo ++ [(n, lookupStore db n)]) m = false := by
        intro m hm
        rw [hasKey_append]
        have h1 : hasKey eo m = false := hfresh m (List.mem_cons_of_mem _ hm)
        have h2 : hasKey [(n, lookupStore db n)] m = false := by
          simp [hasKey]
          intro hnm
          exact hn (hnm ▸ hm)
        rw [h1, h2]
        rfl
      rw [ih (eo ++ [(n, lookupStore db n)]) (by simp) hnd' hfresh'
        (by simp at hlen ⊢; omega)]
      simp

/-- Export completion, corrected: for a nonempty database with distinct store
names and any completion order of the stores, no callback fires before the
last completion; at the last completion — when the installed key count
reaches the declared store count — the callback fires exactly once, with the
serialized document listing the stores in completion order; and the
document's entry multiset is the same for every completion order (only the
textual key order varies). -/
theorem export_completion_once (db : DB) (order : List Str)
    (hnd : (storeNames db).Nodup) (hperm : order.Perm (storeNames db))
    (hne : storeNames db ≠ []) :
    (∀ k, k < order.length → runExport db ((order.take k).map ExEvent.complete) = [])
    ∧ runExport db (order.map ExEvent.complete) =
        [(none, some (serializeDoc (order.map (fun n => (n, lookupStore db n)))))]
    ∧ (order.map (fun n => (n, lookupStore db n))).Perm
        ((storeNames db).map (fun n => (n, lookupStore db n))) := by
  have hN : ¬(storeNames db).length = 0 := by
    intro h0
    exact hne (List.length_eq_zero.mp h0)
  have hlen : order.length = (storeNames db).length := hperm.length_eq
  refine ⟨?_, ?_, ?_⟩
  · intro k hk
    rw [runExport, if_neg hN]
    apply exportCallsAux_no_call
    simp
    omega
  · rw [runExport, if_neg hN]
    have hond : order.Nodup := hperm.nodup_iff.mpr hnd
    have hone : order ≠ [] := by
      intro h0
      rw [h0] at hlen
      exact hN hlen.symm
    have h := exportCallsAux_full db order [] hone hond (by intro n _; rfl) (by simpa using hlen)
    rw [h]
    simp
  · exact hperm.map _

/-- The two-store database (`"a"` and `"b"`, both empty) used to exhibit the
order dependence of the export text. -/
def dbAB : DB := ⟨[([97], []), ([98], [])]⟩

/-- The export claim as stated is false: completing the cursors in the two
possible orders delivers different JSON texts (the key order differs), so the
callback argument does depend on the completion order. -/
theorem export_order_counterexample :
    runExport dbAB [ExEvent.complete [98], ExEvent.complete [97]] ≠
      runExport dbAB [ExEvent.complete [97], ExEvent.complete [98]] := by
  decide

/-- Concrete instance of `export_completion_once`: reverse completion order
on `dbAB` fires exactly one callback carrying the document keyed `"b"` then
`"a"`. -/
theorem export_completion_once_witness :
    runExport dbAB (([[98], [97]] : List Str).map ExEvent.complete) =
      [(none, some (serializeDoc (([[98], [97]] : List Str).map
        (fun n => (n, lookupStore dbAB n)))))] :=
  (export_completion_once dbAB [[98], [97]] (by decide) (List.Perm.swap _ _ _)
    (by decide)).2.1

/-- Once fewer completions than declared stores have arrived, a transaction
error is the only callback the export run will deliver. -/
theorem exportCallsAux_err (db : DB) : ∀ (os : List Str) (eo : List (Str × List JVal)) (e : Err),
    eo.length + os.length < (storeNames db).length →
    exportCallsAux db (os.map ExEvent.complete ++ [ExEvent.txError e]) eo = [(some e, none)] := by
  intro os
  induction os with
  | nil =>
    intro eo e _
    rfl
  | cons n os' ih =>
    intro eo e hlen
    rw [List.map_cons, List.cons_append, exportCallsAux]
    have hub := upsert_length_le eo n (lookupStore db n)
    rw [if_neg (by simp at hlen ⊢; omega)]
    rw [ih (upsert eo n (lookupStore db n)) e (by simp at hlen ⊢; omega)]
    rfl

/-- Number of add successes an event list delivers to the named store. -/
def countAddOk : List ImEvent → Str → Nat
  | [], _ => 0
  | ImEvent.addOk m :: evs, n => (if m = n then 1 else 0) + countAddOk evs n
  | ImEvent.txError _ :: evs, n => countAddOk evs n

/-- The event list consists of add successes only. -/
def allAddOk (evs : List ImEvent) : Bool :=
  evs.all (fun ev => match ev with
    | ImEvent.addOk _ => true
    | _ => false)

/-- Deleting one key leaves lookups of other keys unchanged. -/
theorem lookupKey_eraseKey_ne {α : Type} : ∀ (l : List (Str × α)) (m n : Str), ¬(m = n) →
    lookupKey (eraseKey l m) n = lookupKey l n := by
  intro l
  induction l with
  | nil => intro m n _; rfl
  | cons hd tl ih =>
    intro m n hmn
    obtain ⟨k, v⟩ := hd
    rw [eraseKey]
    by_cases hk : k = m
    · rw [if_pos hk, lookupKey, if_neg (by rw [hk]; exact fun h => hmn h), ih m n hmn]
    · rw [if_neg hk, lookupKey, lookupKey]
      by_cases hkn : k = n
      · rw [if_pos hkn, if_pos hkn]
      · rw [if_neg hkn, if_neg hkn, ih m n hmn]

/-- A successful lookup means the object still has a key. -/
theorem lookupKey_some_length_pos {α : Type} (l : List (Str × α)) (n : Str) (x : α)
    (h : lookupKey l n = some x) : ¬l.length = 0 := by
  cases l with
  | nil => simp [lookupKey] at h
  | cons hd tl => simp

/-- As long as some document store still awaits insertions (its success count
cannot reach its record count during the prefix), the import run fires no
success callback, and a closing transaction error is delivered to the
callback exactly once. -/
theorem importCallsAux_err : ∀ (pre : List ImEvent) (doc : List (Str × JVal))
    (counts : Str → Nat) (e : Err) (n : Str) (l : List JVal),
    allAddOk pre = true →
    lookupKey doc n = some (JVal.arr l) →
    counts n + countAddOk pre n < l.length →
    importCallsAux (pre ++ [ImEvent.txError e]) doc counts = [some e] := by
  intro pre
  induction pre with
  | nil =>
    intro doc counts e n l _ _ _
    rfl
  | cons ev pre' ih =>
    intro doc counts e n l hall hlk hcnt
    cases ev with
    | txError e2 => simp [allAddOk] at hall
    | addOk m =>
      have hall' : allAddOk pre' = true := by
        simp [allAddOk] at hall ⊢
        exact hall
      rw [List.cons_append, importCallsAux]
      by_cases hmn : m = n
      · subst hmn
        have hcm : countAddOk (ImEvent.addOk m :: pre') m = 1 + countAddOk pre' m := by
          rw [countAddOk, if_pos rfl]
        rw [hcm] at hcnt
        split
        · rename_i l2 heq2
          rw [hlk] at heq2
          injection heq2 with h2
          injection h2 with h3
          subst h3
          rw [if_neg (by omega)]
          exact ih doc _ e m l hall' hlk (by simp; omega)
        · rename_i hno
          exact absurd hlk (hno l)
      · have hcm : countAddOk (ImEvent.addOk m :: pre') n = countAddOk pre' n := by
          rw [countAddOk, if_neg hmn]
          omega
        rw [hcm] at hcnt
        have hneq : ¬ n = m := fun h => hmn h.symm
        split
        · rename_i l2 heq2
          by_cases hfull : counts m + 1 = l2.length
          · rw [if_pos hfull]
            have hlk2 : lookupKey (eraseKey doc m) n = some (JVal.arr l) := by
              rw [lookupKey_eraseKey_ne doc m n hmn]
              exact hlk
            rw [if_neg (lookupKey_some_length_pos _ n _ hlk2)]
            rw [ih (eraseKey doc m) _ e n l hall' hlk2 (by simp [hneq]; omega)]
            rfl
          · rw [if_neg hfull]
            exact ih doc _ e n l hall' hlk (by simp [hneq]; omega)
        · exact ih doc _ e n l hall' hlk (by simp [hneq]; omega)

/-- While the clear counter is below the declared store count, a transaction
error is the only callback the clear run will deliver. -/
theorem clearCallsAux_err (db : DB) : ∀ (pre : List ClEvent) (c : Nat) (e : Err),
    (∀ ev ∈ pre, ev = ClEvent.cleared) → c + pre.length < (storeNames db).length →
    clearCallsAux db (pre ++ [ClEvent.txError e]) c = [some e] := by
  intro pre
  induction pre with
  | nil => intro c e _ _; rfl
  | cons ev pre' ih =>
    intro c e hall hlen
    have hev : ev = ClEvent.cleared := hall ev (List.mem_cons_self _ _)
    subst hev
    rw [List.cons_append, clearCallsAux]
    rw [if_neg (by simp at hlen ⊢; omega)]
    rw [ih (c + 1) e (fun ev2 h2 => hall ev2 (List.mem_cons_of_mem _ h2))
      (by simp at hlen ⊢; omega)]
    rfl

/-- Unfolding `runImport` on a text that parses. -/
theorem runImport_some (db : DB) (text : Str) (evs : List ImEvent) (v : JVal)
    (h : jsonParse text = some v) :
    runImport db text evs =
      Except.ok (importRecordsOf (storeNames db) (docEntries (importRevive v)),
        importCallsAux evs (docEntries (importRevive v)) (fun _ => 0)) := by
  rw [runImport, h]

/-- Error propagation: in each of the three operations a transaction-level
error — arriving while the operation is still pending (fewer completions than
needed for success) — makes the run invoke the callback exactly once, with
the error event as its non-null first argument, and for export with a null
document argument. -/
theorem txerror_single_callback :
    (∀ (db : DB) (done : List Str) (e : Err),
      done.length < (storeNames db).length →
      runExport db (done.map ExEvent.complete ++ [ExEvent.txError e]) = [(some e, none)])
    ∧ (∀ (db : DB) (text : Str) (pre : List ImEvent) (e : Err) (v : JVal) (n : Str)
        (l : List JVal),
      jsonParse text = some v →
      allAddOk pre = true →
      lookupKey (docEntries (importRevive v)) n = some (JVal.arr l) →
      countAddOk pre n < l.length →
      runImport db text (pre ++ [ImEvent.txError e]) =
        Except.ok (importRecordsOf (storeNames db) (docEntries (importRevive v)), [some e]))
    ∧ (∀ (db : DB) (pre : List ClEvent) (e : Err),
      (∀ ev ∈ pre, ev = ClEvent.cleared) →
      pre.length < (storeNames db).length →
      runClear db (pre ++ [ClEvent.txError e]) = [some e]) := by
  refine ⟨?_, ?_, ?_⟩
  · intro db done e hlen
    rw [runExport, if_neg (by omega)]
    exact exportCallsAux_err db done [] e (by simpa using hlen)
  · intro db text pre e v n l hparse hall hlk hcnt
    rw [runImport_some db text _ v hparse]
    rw [importCallsAux_err pre _ (fun _ => 0) e n l hall hlk (by simpa using hcnt)]
  · intro db pre e hall hlen
    rw [runClear]
    exact clearCallsAux_err db pre 0 e hall (by omega)

/-- The one-store database (`"a"`, no records) used by the import-side
witnesses. -/
def dbA : DB := ⟨[([97], [])]⟩

/-- Concrete instances of `txerror_single_callback`: a transaction error
right after opening makes export call back once with `(error, null)`, import
(on the text `{"a":[1]}`) once with the error, and clear once with the
error. -/
theorem txerror_single_callback_witness :
    runExport dbAB (([] : List Str).map ExEvent.complete ++ [ExEvent.txError 3]) =
      [(some 3, none)]
    ∧ runImport dbA [123, 34, 97, 34, 58, 91, 49, 93, 125]
        (([] : List ImEvent) ++ [ImEvent.txError 5]) =
        Except.ok (importRecordsOf (storeNames dbA)
          (docEntries (importRevive (JVal.obj [([97], JVal.arr [JVal.num 1])]))), [some 5])
    ∧ runClear dbA (([] : List ClEvent) ++ [ClEvent.txError 7]) = [some 7] :=
  ⟨txerror_single_callback.1 dbAB [] 3 (by decide),
   txerror_single_callback.2.1 dbA [123, 34, 97, 34, 58, 91, 49, 93, 125] []
     5 (JVal.obj [([97], JVal.arr [JVal.num 1])]) [97] [JVal.num 1] rfl rfl rfl (by decide),
   txerror_single_callback.2.2 dbA [] 7 (fun ev h => absurd h (List.not_mem_nil ev))
     (by decide)⟩

/-- Importing the empty JSON object `{}` into a database that declares a
store issues zero `add` requests — so no `onsuccess` handler ever runs, and
since `cb(null)` is reachable only inside those handlers, the callback is
never invoked at all (the run produces zero insertions and an empty list of
callback invocations, not the single `cb(null)` the spec promises). -/
theorem import_empty_object_no_callback :
    runImport dbA [123, 125] [] = Except.ok ([([97], [])], [])
    ∧ ([] : List (Option Err)) ≠ [none] := by
  constructor
  · rfl
  · decide

/-- Malformed import text: when the text is not valid JSON (in the modelled
fragment), `importFromJsonString` surfaces the failure as the parse exception
of `JSON.parse`, thrown synchronously to the caller — modelled by
`Except.error` — and never through the completion callback, whatever the
engine would have delivered. -/
theorem import_malformed_throws (db : DB) (text : Str) (evs : List ImEvent)
    (h : jsonParse text = none) : runImport db text evs = Except.error () := by
  rw [runImport, h]

/-- Concrete instance of `import_malformed_throws` on the text `not`. -/
theorem import_malformed_throws_witness :
    jsonParse [110, 111, 116] = none
    ∧ runImport dbA [110, 111, 116] [] = Except.error () :=
  ⟨rfl, import_malformed_throws dbA [110, 111, 116] [] rfl⟩

/-- With zero declared stores the clear-success counter `count + 1` can never
equal the store count `0`, and the comparison lives only inside per-store
clear handlers; so `clearDatabase` on an empty database never invokes its
callback — even hypothetically per clear-success event — unlike
`exportToJsonString`, whose explicit empty-database special case calls back
immediately with `{}`. -/
theorem clear_empty_db_no_callback (db : DB) (h : storeNames db = []) :
    (∀ evs, (∀ ev ∈ evs, ev = ClEvent.cleared) → runClear db evs = [])
    ∧ runExport db [] = [(none, some (printVal (JVal.obj []))) ] := by
  constructor
  · intro evs hevs
    rw [runClear]
    have haux : ∀ (evs2 : List ClEvent) (c : Nat), (∀ ev ∈ evs2, ev = ClEvent.cleared) →
        clearCallsAux db evs2 c = [] := by
      intro evs2
      induction evs2 with
      | nil => intro c _; rfl
      | cons ev tl ih =>
        intro c hall
        have hev : ev = ClEvent.cleared := hall ev (List.mem_cons_self _ _)
        subst hev
        rw [clearCallsAux, if_neg (by rw [h]; simp)]
        rw [ih (c + 1) (fun ev2 h2 => hall ev2 (List.mem_cons_of_mem _ h2))]
        rfl
    exact haux evs 0 hevs
  · rw [runExport, if_pos (by rw [h]; rfl)]

/-- The empty database used by the clear witness. -/
def dbEmpty : DB := ⟨[]⟩

/-- Concrete instance of `clear_empty_db_no_callback`. -/
theorem clear_empty_db_no_callback_witness :
    runClear dbEmpty [] = []
    ∧ runExport dbEmpty [] = [(none, some (printVal (JVal.obj []))) ] :=
  ⟨(clear_empty_db_no_callback dbEmpty rfl).1 [] (fun ev h => absurd h (List.not_mem_nil ev)),
   (clear_empty_db_no_callback dbEmpty rfl).2⟩
